import Mathlib

/-!
Verification of the `calibre_to_abs_bridge` repository.

The repository is a single Python file implementing `BookFS`, a read-only
FUSE filesystem that re-exposes a Calibre-style book library as an
`Author/Series/Book N` (or `Author/Title`) virtual tree.  This file gives a
shallow embedding of the program in Lean and proves (or refutes) the frozen
specification claims about it.

Modelling conventions, used throughout:

* Python `str` values are modelled as Lean `String` (a list of Unicode
  scalar values, matching Python's sequence-of-code-points view).
* Python's Unicode character database (consulted by `str.isalnum` and by
  `str.split()` / `str.strip()` via `str.isspace`) is an external input of
  the program; it is modelled as a pair of predicates (`UnicodeDB`), and
  `ValidDB` records its documented behaviour on the ASCII range together
  with the disjointness of the alphanumeric and whitespace classes.
* The real on-disk world (the result of `os.walk` over a book directory,
  the outcome of `ET.parse` on a descriptor, `os.path.getsize`, and the
  bytes of real files) is modelled as explicit inputs: a `DirTree` per book,
  an `Except Unit OpfDoc` parse outcome per descriptor, and
  `String → Option Nat` / `String → Option (List Nat)` oracles for live
  stat and read calls (`none` models the raised `OSError`).
* CPython's `float(str)` / `int(float)` pipeline is modelled exactly on its
  grammar (sign, decimal digits with PEP-515 underscores, fraction,
  exponent, and the `inf`/`infinity`/`nan` spellings), with the numeric
  value kept as an exact rational; IEEE-754 rounding and the finite double
  range are abstracted away (the only behavioural difference is for decimal
  literals whose rounding crosses an integer boundary or whose magnitude
  exceeds the double range).
* `os.path.normpath`, `os.path.join`, `os.path.dirname`,
  `os.path.basename` and `str.strip('/')` are ported from CPython's
  `posixpath` module, character by character.
* Python `dict` / `set` are modelled as association lists with
  overwrite-on-insert and duplicate-free append, respectively; the
  unspecified iteration order of `set` in `readdir` is modelled by a
  first-occurrence deduplication of the collected entries.
-/

/-! ## List-of-characters utilities (ports of the Python string primitives) -/

/-- Split a character list on a separator character, keeping empty pieces:
the port of Python's `str.split(sep)` for a one-character separator. -/
def splitOnChar (sep : Char) : List Char → List (List Char)
  | [] => [[]]
  | c :: rest =>
    if c = sep then [] :: splitOnChar sep rest
    else
      match splitOnChar sep rest with
      | [] => [[c]]
      | w :: ws => (c :: w) :: ws

/-- Interleave `'/'` between character-list components: `'/'.join(...)`. -/
def joinSlashL : List (List Char) → List Char
  | [] => []
  | [w] => w
  | w :: ws => w ++ '/' :: joinSlashL ws

/-- Interleave `"/"` between string components: `'/'.join(...)` on strings. -/
def joinSlash : List String → String
  | [] => ""
  | [w] => w
  | w :: ws => w ++ "/" ++ joinSlash ws

/-- Interleave a single space between components: `' '.join(...)`. -/
def joinSpace : List (List Char) → List Char
  | [] => []
  | [w] => w
  | w :: ws => w ++ ' ' :: joinSpace ws

/-- Drop characters satisfying `p` from both ends: Python's `str.strip`. -/
def pyStrip (p : Char → Bool) (l : List Char) : List Char :=
  ((l.dropWhile p).reverse.dropWhile p).reverse

/-- One `foldr` step of whitespace splitting (see `pySplitWs`). -/
def splitWsStep (p : Char → Bool) (c : Char) (acc : List (List Char)) :
    List (List Char) :=
  if p c then
    match acc with
    | [] => []
    | w :: ws => if w = [] then w :: ws else [] :: w :: ws
  else
    match acc with
    | [] => [[c]]
    | w :: ws => (c :: w) :: ws

/-- Split on runs of characters satisfying `p`, discarding empty pieces:
the port of Python's no-argument `str.split()` (with `p` playing the role
of `str.isspace`). -/
def pySplitWs (p : Char → Bool) (l : List Char) : List (List Char) :=
  match l.foldr (splitWsStep p) [] with
  | [] => []
  | w :: ws => if w = [] then ws else w :: ws

/-- First-occurrence deduplication against an accumulator of names already
seen (see `dedupKeepFirst`). -/
def dedupSeen (seen : List String) : List String → List String
  | [] => []
  | x :: rest =>
    if x ∈ seen then dedupSeen seen rest
    else x :: dedupSeen (x :: seen) rest

/-- First-occurrence deduplication; models collecting into a Python `set`
(the unspecified set iteration order is fixed to first insertion). -/
def dedupKeepFirst (l : List String) : List String := dedupSeen [] l

/-- Association-list lookup with string keys (first match), the read side
of the Python `dict` model. -/
def lookupKey : List (String × String) → String → Option String
  | [], _ => none
  | (a, b) :: rest, k => if a = k then some b else lookupKey rest k

/-- Python `dict` assignment `m[k] = v`: overwrite in place if the key is
present, otherwise append. -/
def setKey (m : List (String × String)) (k v : String) :
    List (String × String) :=
  if (lookupKey m k).isSome then
    m.map (fun p => if p.1 = k then (k, v) else p)
  else m ++ [(k, v)]

/-- Python `set.add`: append if absent. -/
def addSet (s : List String) (d : String) : List String :=
  if d ∈ s then s else s ++ [d]

/-! ## POSIX path functions, ported from CPython `posixpath` -/

/-- One step of the `normpath` component loop (CPython `posixpath.normpath`):
skip empty and `.` components, pop on `..` (except at the root of an
absolute path / at the start of a relative path / after an unpopped `..`). -/
def normStep (slashes : Nat) (acc : List (List Char)) (comp : List Char) :
    List (List Char) :=
  if comp = [] ∨ comp = ['.'] then acc
  else if comp ≠ ['.', '.'] ∨ (slashes = 0 ∧ acc = [])
      ∨ (acc ≠ [] ∧ acc.getLast? = some ['.', '.']) then
    acc ++ [comp]
  else acc.dropLast

/-- The `initial_slashes` count of CPython `posixpath.normpath`: `1` for
an absolute path, `2` for the POSIX special case `//` (but not `///`),
`0` otherwise. -/
def pyNormSlashes (l : List Char) : Nat :=
  if l.head? = some '/' then
    if l.take 2 = ['/', '/'] ∧ ¬ l.take 3 = ['/', '/', '/'] then 2 else 1
  else 0

/-- The tail of CPython `posixpath.normpath`: prepend the initial
slashes and return `'.'` for an empty result (`return path or '.'`). -/
def normJoin (slashes : Nat) (comps : List (List Char)) : List Char :=
  if List.replicate slashes '/' ++ joinSlashL comps = [] then ['.']
  else List.replicate slashes '/' ++ joinSlashL comps

/-- CPython `posixpath.normpath`, on character lists. -/
def pyNormpathL (l : List Char) : List Char :=
  if l = [] then ['.']
  else
    normJoin (pyNormSlashes l)
      ((splitOnChar '/' l).foldl (normStep (pyNormSlashes l)) [])

/-- CPython `posixpath.normpath` on strings (`os.path.normpath`). -/
def normpath (p : String) : String := ⟨pyNormpathL p.data⟩

/-- Split a character list at its last `'/'`: returns the head including
that slash and the tail after it, or `none` when there is no slash.  This
is `p[:i], p[i:]` for `i = p.rfind('/') + 1` in CPython. -/
def lastSlashSplit : List Char → Option (List Char × List Char)
  | [] => none
  | c :: rest =>
    match lastSlashSplit rest with
    | some (h, t) => some (c :: h, t)
    | none => if c = '/' then some (['/'], rest) else none

/-- CPython `posixpath.basename`. -/
def basename (p : String) : String :=
  match lastSlashSplit p.data with
  | some (_, t) => ⟨t⟩
  | none => p

/-- Drop trailing `'/'` characters: `str.rstrip('/')`. -/
def dropTrailSlash (l : List Char) : List Char :=
  (l.reverse.dropWhile (· = '/')).reverse

/-- CPython `posixpath.dirname`. -/
def dirname (p : String) : String :=
  match lastSlashSplit p.data with
  | none => ""
  | some (h, _) =>
    if h ≠ [] ∧ h.any (· ≠ '/') then ⟨dropTrailSlash h⟩ else ⟨h⟩

/-- CPython `posixpath.join` for two components. -/
def join2 (a b : String) : String :=
  if b.data.head? = some '/' then b
  else if a = "" ∨ a.data.getLast? = some '/' then a ++ b
  else a ++ "/" ++ b

/-- Python `str.strip('/')`. -/
def pyStripChar (c : Char) (s : String) : String :=
  ⟨((s.data.dropWhile (· = c)).reverse.dropWhile (· = c)).reverse⟩

/-- String version of `splitOnChar`: Python `str.split('/')`. -/
def splitOnStr (sep : Char) (s : String) : List String :=
  (splitOnChar sep s.data).map String.mk

example : normpath "/a/../b" = "/b" := by decide
example : normpath "/.." = "/" := by decide
example : normpath "" = "." := by decide
example : normpath "//a//b/./c/.." = "//a/b" := by decide
example : normpath "a/../../b" = "../b" := by decide
example : dirname "/a/b" = "/a" := by decide
example : dirname "/a" = "/" := by decide
example : dirname "a" = "" := by decide
example : dirname "//a" = "//" := by decide
example : basename "/a/b" = "b" := by decide
example : basename "ab" = "ab" := by decide
example : join2 "" "b" = "b" := by decide
example : join2 "a" "b" = "a/b" := by decide
example : join2 "a" "/b" = "/b" := by decide
example : join2 "/" "b" = "/b" := by decide
example : pyStripChar '/' "/a/b/" = "a/b" := by decide
example : splitOnStr '/' "a/b" = ["a", "b"] := by decide
example : splitOnStr '/' "" = [""] := by decide

/-! ## The Unicode character database and `sanitize_name` -/

/-- Python's Unicode character database, as consulted by `str.isalnum`
(one argument), by `str.strip()` / `str.split()` (via `str.isspace`),
and by the `float(str)` argument pre-transform (the Unicode decimal
digit value `Py_UNICODE_TODECIMAL`, `none` for a character that is not
a decimal digit).  It is external data of the program and is passed
explicitly. -/
structure UnicodeDB where
  isalnum : Char → Bool
  isspace : Char → Bool
  todec : Char → Option Nat

/-- The ASCII-range whitespace class of Python's `str.isspace`:
space, `\t`, `\n`, `\r`, `\x0b`, `\x0c` and the separator controls
`\x1c`-`\x1f`. -/
def asciiSpaceB (c : Char) : Bool :=
  c == ' ' || c == '\t' || c == '\n' || c == '\r' ||
  c == Char.ofNat 11 || c == Char.ofNat 12 || c == Char.ofNat 28 ||
  c == Char.ofNat 29 || c == Char.ofNat 30 || c == Char.ofNat 31

/-- Documented facts about Python's character database that the proofs
rely on: on the ASCII range `str.isalnum` is exactly `[0-9A-Za-z]` and
`str.isspace` is exactly `asciiSpaceB`, and no character is both
alphanumeric and whitespace. -/
def ValidDB (db : UnicodeDB) : Prop :=
  (∀ c : Char, c.val < 128 → db.isalnum c = c.isAlphanum) ∧
  (∀ c : Char, c.val < 128 → db.isspace c = asciiSpaceB c) ∧
  (∀ c : Char, db.isalnum c = true → db.isspace c = false)

/-- The purely ASCII instance of the database (it is `Valid`). -/
def dbA : UnicodeDB :=
  ⟨fun c => c.isAlphanum, asciiSpaceB,
   fun c => if c.isDigit then some (c.toNat - 48) else none⟩

/-- The literal set `"-_.() "` of `sanitize_name`. -/
def safeChars : List Char := ['-', '_', '.', '(', ')', ' ']

/-- `BookFS.sanitize_name`: keep characters that are alphanumeric or in
`safeChars`, replace every other character with `'_'`, then
`' '.join(sanitized.strip().split())`. -/
def sanitize_name (db : UnicodeDB) (name : String) : String :=
  let sanitized := name.data.map
    (fun c => if db.isalnum c || safeChars.contains c then c else '_')
  ⟨joinSpace (pySplitWs db.isspace (pyStrip db.isspace sanitized))⟩

example : sanitize_name dbA "John: Smith!" = "John_ Smith_" := by decide
example : sanitize_name dbA "  a   b  " = "a b" := by decide
example : sanitize_name dbA " " = "" := by decide
example : sanitize_name dbA ".." = ".." := by decide

/-! ## CPython `float(str)` and `int(float)`, with exact rational values -/

/-- The value classes the CPython float-literal grammar can yield.  A
finite literal is kept exact as `m * 10 ^ e` with integer mantissa and
exponent; the IEEE-754 rounding to a binary64 — including the overflow
to infinity beyond the double range — is applied afterwards by
`pyIntFloat` below. -/
inductive PyFloat : Type where
  | finite : Int → Int → PyFloat
  | inf : Bool → PyFloat
  | nan : PyFloat
deriving DecidableEq

/-- Python exception kinds raised in the modelled fragment. -/
inductive PyError : Type where
  | typeError : PyError
  | valueError : PyError
  | overflowError : PyError
deriving DecidableEq

instance instDecEqExcept {ε α : Type _} [DecidableEq ε] [DecidableEq α] :
    DecidableEq (Except ε α) := fun a b =>
  match a, b with
  | .ok x, .ok y =>
    if h : x = y then isTrue (congrArg Except.ok h)
    else isFalse (fun hh => h (Except.ok.inj hh))
  | .error x, .error y =>
    if h : x = y then isTrue (congrArg Except.error h)
    else isFalse (fun hh => h (Except.error.inj hh))
  | .ok _, .error _ => isFalse (fun hh => Except.noConfusion hh)
  | .error _, .ok _ => isFalse (fun hh => Except.noConfusion hh)

/-- Whitespace stripped by `float(str)` around the literal. -/
def floatWsB (c : Char) : Bool :=
  c == ' ' || c == '\t' || c == '\n' || c == '\r' ||
  c == Char.ofNat 11 || c == Char.ofNat 12

/-- Digit-run parser with PEP-515 underscores (an underscore must sit
between two digits).  Returns the accumulated value, the number of digits
consumed, and the rest of the input. -/
def goDigits (acc cnt : Nat) : List Char → Nat × Nat × List Char
  | [] => (acc, cnt, [])
  | '_' :: c2 :: r2 =>
    if c2.isDigit then goDigits (acc * 10 + (c2.toNat - 48)) (cnt + 1) r2
    else (acc, cnt, '_' :: c2 :: r2)
  | c :: r =>
    if c.isDigit then goDigits (acc * 10 + (c.toNat - 48)) (cnt + 1) r
    else (acc, cnt, c :: r)

/-- Parse a leading digit run (which must start with a digit). -/
def parseDigits (l : List Char) : Option (Nat × Nat × List Char) :=
  match l with
  | c :: _ => if c.isDigit then some (goDigits 0 0 l) else none
  | [] => none

/-- Parse an optional sign; returns `true` for a leading `'-'`. -/
def parseSign : List Char → Bool × List Char
  | '+' :: r => (false, r)
  | '-' :: r => (true, r)
  | l => (false, l)

/-- Parse the decimal part `digits [. [digits]] | . digits` of a float
literal; returns the mantissa digits as a natural number, the number of
fractional digits, and the rest (the exact value is `mant / 10 ^ frac`). -/
def parseMantissa (l : List Char) : Option (Nat × Nat × List Char) :=
  match parseDigits l with
  | some (ip, _, r1) =>
    match r1 with
    | '.' :: r2 =>
      match parseDigits r2 with
      | some (fp, fc, r3) => some (ip * 10 ^ fc + fp, fc, r3)
      | none => some (ip, 0, r2)
    | _ => some (ip, 0, r1)
  | none =>
    match l with
    | '.' :: r2 =>
      match parseDigits r2 with
      | some (fp, fc, r3) => some (fp, fc, r3)
      | none => none
    | _ => none

/-- Parse an optional exponent `([eE] [sign] digits)`; fails on a dangling
`e`; returns the signed exponent and the rest. -/
def parseExponent (l : List Char) : Option (Int × List Char) :=
  match l with
  | 'e' :: r1 =>
    let (neg, r2) := parseSign r1
    match parseDigits r2 with
    | some (ev, _, r3) => some (if neg then -(ev : Int) else (ev : Int), r3)
    | none => none
  | 'E' :: r1 =>
    let (neg, r2) := parseSign r1
    match parseDigits r2 with
    | some (ev, _, r3) => some (if neg then -(ev : Int) else (ev : Int), r3)
    | none => none
  | _ => some (0, l)

/-- CPython `float(str)`: `none` models the raised `ValueError`. -/
def pyFloatParse (s : String) : Option PyFloat :=
  let l := pyStrip floatWsB s.data
  let (neg, l1) := parseSign l
  let low := l1.map Char.toLower
  if low = "inf".data ∨ low = "infinity".data then some (.inf neg)
  else if low = "nan".data then some .nan
  else
    match parseMantissa l1 with
    | none => none
    | some (m, fc, r1) =>
      match parseExponent r1 with
      | none => none
      | some (e, r2) =>
        if r2 = [] then
          some (.finite (if neg then -(m : Int) else (m : Int)) (e - fc))
        else none

/-- The decimal digit character for a value below ten. -/
def digitChar (n : Nat) : Char :=
  match n with
  | 0 => '0' | 1 => '1' | 2 => '2' | 3 => '3' | 4 => '4'
  | 5 => '5' | 6 => '6' | 7 => '7' | 8 => '8' | _ => '9'

/-- Decimal digits of a natural number, most significant first (the first
argument is recursion fuel; `n + 1` is always enough). -/
def natDigitsAux : Nat → Nat → List Char
  | 0, _ => []
  | fuel + 1, n =>
    if n < 10 then [digitChar n]
    else natDigitsAux fuel (n / 10) ++ [digitChar (n % 10)]

/-- Decimal digits of a natural number, most significant first. -/
def natDigits (n : Nat) : List Char := natDigitsAux (n + 1) n

/-- Python `str(int)`: decimal rendering with a leading `'-'` when
negative (as used by the f-string `f"Book {series_index}"`). -/
def intStr (i : Int) : String :=
  if i < 0 then ⟨'-' :: natDigits i.natAbs⟩ else ⟨natDigits i.natAbs⟩

example : intStr (-203) = "-203" := by decide

/-- CPython's `float(str)` argument pre-transform
(`_PyUnicode_TransformDecimalAndSpaceToASCII`): a pure-ASCII string is
returned unchanged; otherwise every character below `\x7f` is kept, a
Unicode whitespace becomes `' '`, a character with a Unicode
decimal-digit value becomes that ASCII digit, and anything else becomes
`'?'` (which the grammar then rejects with `ValueError`). -/
def decTransform (db : UnicodeDB) (s : String) : String :=
  if s.data.all (fun c => c.val < 128) then s
  else ⟨s.data.map (fun c =>
    if c.val < 127 then c
    else if db.isspace c then ' '
    else
      match db.todec c with
      | some d => digitChar d
      | none => '?')⟩

/-- Number of binary digits (`0` for `0`); the first argument is
recursion fuel, and `n` itself is always enough. -/
def bitsF : Nat → Nat → Nat
  | 0, _ => 0
  | f + 1, n => if n = 0 then 0 else bitsF f (n / 2) + 1

/-- Number of binary digits: `2 ^ (bits n - 1) ≤ n < 2 ^ bits n` for
positive `n`. -/
def bits (n : Nat) : Nat := bitsF n n

/-- Number of decimal digits (`0` for `0`); fuel-based like `bitsF`. -/
def dig10F : Nat → Nat → Nat
  | 0, _ => 0
  | f + 1, n => if n = 0 then 0 else dig10F f (n / 10) + 1

/-- Number of decimal digits: `10 ^ (dig10 n - 1) ≤ n < 10 ^ dig10 n`
for positive `n`. -/
def dig10 (n : Nat) : Nat := dig10F n n

/-- Decide `b * 2 ^ d ≤ a` for a signed exponent `d`. -/
def pow2le (a b : Nat) (d : Int) : Bool :=
  if 0 ≤ d then decide (b * 2 ^ d.toNat ≤ a) else decide (b ≤ a * 2 ^ (-d).toNat)

/-- Round the positive rational `a / b` to the nearest IEEE-754 binary64,
ties to even (the rounding CPython's `strtod` performs), assuming
`1 / 10 ≤ a / b` — the caller excludes smaller values, whose truncation
is `0` regardless, so the subnormal range is never reached.  `bits`
brackets `a / b` between `2 ^ j` and `2 ^ (j + 1)`; the significand is
the half-even rounding of `a / (b * 2 ^ (j - 52))`, with the carry
`2 ^ 53 → 2 ^ 52` bumping the exponent.  The result is the significand
`n` (`2 ^ 52 ≤ n < 2 ^ 53`) and exponent `q` of the double `n * 2 ^ q`,
or `none` when the value rounds to `2 ^ 1024` or beyond (`q > 971`) and
the conversion overflows to infinity. -/
def roundPos (a b : Nat) : Option (Nat × Int) :=
  let d : Int := (bits a : Int) - (bits b : Int)
  let j : Int := if pow2le a b d then d else d - 1
  let q0 : Int := j - 52
  let num : Nat := if 0 ≤ q0 then a else a * 2 ^ (-q0).toNat
  let den : Nat := if 0 ≤ q0 then b * 2 ^ q0.toNat else b
  let n0 : Nat := num / den
  let r : Nat := num % den
  let n1 : Nat :=
    if den < 2 * r ∨ (2 * r = den ∧ n0 % 2 = 1) then n0 + 1 else n0
  if n1 = 2 ^ 53 then
    if (971 : Int) < q0 + 1 then none else some (2 ^ 52, q0 + 1)
  else if (971 : Int) < q0 then none else some (n1, q0)

/-- Python `int(float(x))` for `x` an optional string (the program calls
it on `metadata['series_index']`): `float(None)` raises `TypeError`; a
string is pre-transformed by `decTransform`, parsed by the float-literal
grammar, and its exact decimal value is rounded to the nearest binary64.
A value of decimal magnitude at least `10 ^ 310` exceeds `2 ^ 1024` and
certainly overflows to infinity; one below `1 / 10` certainly rounds
below `1` and truncates to `0`; in between `roundPos` computes the
rounding exactly.  An unparsable string raises `ValueError`, `int(nan)`
raises `ValueError`, and `int(±inf)` — from an `inf` literal or from a
finite literal beyond the double range — raises `OverflowError`.  The
final truncation toward zero of `n * 2 ^ q` is exact integer
arithmetic. -/
def pyIntFloat (db : UnicodeDB) (idx : Option String) :
    Except PyError Int :=
  match idx with
  | none => .error .typeError
  | some s =>
    match pyFloatParse (decTransform db s) with
    | none => .error .valueError
    | some .nan => .error .valueError
    | some (.inf _) => .error .overflowError
    | some (.finite m e) =>
      let ma := m.natAbs
      if ma = 0 then .ok 0
      else if 311 ≤ (dig10 ma : Int) + e then .error .overflowError
      else if (dig10 ma : Int) + e ≤ -1 then .ok 0
      else
        let a := if 0 ≤ e then ma * 10 ^ e.toNat else ma
        let b := if 0 ≤ e then 1 else 10 ^ (-e).toNat
        match roundPos a b with
        | none => .error .overflowError
        | some (n, q) =>
          let t : Nat :=
            if 0 ≤ q then n * 2 ^ q.toNat else n / 2 ^ (-q).toNat
          .ok (if m < 0 then -(t : Int) else (t : Int))

example : pyIntFloat dbA (some "2.0") = .ok 2 := by decide
example : pyIntFloat dbA (some "-2.7") = .ok (-2) := by decide
example : pyIntFloat dbA (some " 10 ") = .ok 10 := by decide
example : pyIntFloat dbA (some "1e2") = .ok 100 := by decide
example : pyIntFloat dbA (some "1_0") = .ok 10 := by decide
example : pyIntFloat dbA (some "1_") = .error .valueError := by decide
example : pyIntFloat dbA (some "two") = .error .valueError := by decide
example : pyIntFloat dbA (some "nan") = .error .valueError := by decide
example : pyIntFloat dbA (some "inf") = .error .overflowError := by decide
example : pyIntFloat dbA (some "-Infinity") = .error .overflowError := by
  decide
example : pyIntFloat dbA none = .error .typeError := by decide
example : pyIntFloat dbA (some "0x1") = .error .valueError := by decide
example : pyIntFloat dbA (some ".5") = .ok 0 := by decide
example : pyIntFloat dbA (some "1.") = .ok 1 := by decide
example : pyIntFloat dbA (some "1e") = .error .valueError := by decide

/-- A huge finite literal overflows the double range: `int(float('1e400'))`
raises `OverflowError` in CPython, and here. -/
example : pyIntFloat dbA (some "1e400") = .error .overflowError := by decide

set_option maxRecDepth 8192 in
example : pyIntFloat dbA (some "1e309") = .error .overflowError := by decide
example : pyIntFloat dbA (some "-1e400") = .error .overflowError := by decide

/-- IEEE-754 rounding happens before `int()` truncates:
`float('2.9999999999999999')` is exactly `3.0`, so the result is `3`,
not `2`. -/
example : pyIntFloat dbA (some "2.9999999999999999") = .ok 3 := by decide
example : pyIntFloat dbA (some "0.99999999999999999") = .ok 1 := by decide
example : pyIntFloat dbA (some "2.9999999999999") = .ok 2 := by decide
example : pyIntFloat dbA (some "-2.9999999999999999") = .ok (-3) := by decide
example : pyIntFloat dbA (some "1e-400") = .ok 0 := by decide

/-- Halfway cases round to the even significand, as CPython's `strtod`
does: `.5` past `2 ^ 52` sits exactly between two doubles. -/
example : pyIntFloat dbA (some "4503599627370496.5") =
    .ok 4503599627370496 := by decide
example : pyIntFloat dbA (some "4503599627370497.5") =
    .ok 4503599627370498 := by decide

set_option maxRecDepth 8192 in
example : pyIntFloat dbA (some "1.8e308") = .error .overflowError := by
  decide

/-- A database carrying the Unicode decimal-digit values of the
ARABIC-INDIC digits `U+0660`-`U+0669`, as Python's database does. -/
def dbD : UnicodeDB :=
  ⟨fun c => c.isAlphanum || (0x660 ≤ c.val && c.val ≤ 0x669),
   asciiSpaceB,
   fun c =>
     if c.isDigit then some (c.toNat - 48)
     else if 0x660 ≤ c.val && c.val ≤ 0x669 then some (c.toNat - 0x660)
     else none⟩

/-- `float(str)` transforms Unicode decimal digits to ASCII before
parsing: `int(float('٢'))` is `2` in CPython, and here. -/
example : pyIntFloat dbD (some "٢") = .ok 2 := by decide
example : pyIntFloat dbD (some "١٢.٥") = .ok 12 := by decide

/-! ## Metadata parsing (`BookFS.parse_metadata`) -/

/-- The record returned by `parse_metadata` (its Python dict). -/
structure BookMetadata where
  author : String
  book_title : String
  series : Option String
  series_index : Option String
deriving DecidableEq

/-- What `ElementTree` finds in a successfully parsed descriptor: for each
of the four queried elements, the outer `Option` is element presence
(`root.find` returning `None` or not) and the inner `Option` is the text of
a `dc:` element (`elem.text`, `None` for an empty element) or the
`content` attribute of an `opf:meta` element (`elem.get('content')`,
`None` when the attribute is absent). -/
structure OpfDoc where
  creator : Option (Option String)
  title : Option (Option String)
  seriesMeta : Option (Option String)
  seriesIndexMeta : Option (Option String)
deriving DecidableEq

/-- `BookFS.parse_metadata`.  The argument models the outcome of
`ET.parse`: `.error ()` is a raised `ET.ParseError` (caught by the
function, which then returns the all-default record).  A `TypeError`
escapes when `sanitize_name` is applied to a `None` element text. -/
def parse_metadata (db : UnicodeDB) (d : Except Unit OpfDoc) :
    Except PyError BookMetadata :=
  match d with
  | .error _ => .ok ⟨"Unknown Author", "Unknown Title", none, none⟩
  | .ok doc =>
    let author0 : Option String :=
      match doc.creator with
      | some t => t
      | none => some "Unknown Author"
    match author0 with
    | none => .error .typeError
    | some a =>
      let author := sanitize_name db a
      let title0 : Option String :=
        match doc.title with
        | some t => t
        | none => some "Unknown Title"
      match title0 with
      | none => .error .typeError
      | some t =>
        let book_title := sanitize_name db t
        let series0 : Option String := doc.seriesMeta.bind id
        let series : Option String :=
          match series0 with
          | some s => if s ≠ "" then some (sanitize_name db s) else some s
          | none => none
        let series_index : Option String := doc.seriesIndexMeta.bind id
        .ok ⟨author, book_title, series, series_index⟩

/-! ## Path derivation (`BookFS.get_book_path`) -/

/-- The `metadata['book_title'] or 'Unknown Book'` idiom (`or` falls
through on the empty, falsy, string). -/
def titleOrUnknown (t : String) : String := if t = "" then "Unknown Book" else t

/-- `BookFS.get_book_path`.  `metadata['series']` is truthy when it is a
non-empty string; an index whose `int(float(...))` conversion raises
`OverflowError` (an infinite literal, or a finite literal beyond the
double range) escapes, since the `except (TypeError, ValueError)` clause
does not catch it. -/
def get_book_path (db : UnicodeDB) (m : BookMetadata) :
    Except PyError String :=
  match m.series with
  | some s =>
    if s = "" then .ok (join2 m.author (titleOrUnknown m.book_title))
    else
      match pyIntFloat db m.series_index with
      | .ok n => .ok (join2 (join2 m.author s) ("Book " ++ intStr n))
      | .error .typeError =>
        .ok (join2 (join2 m.author s) (titleOrUnknown m.book_title))
      | .error .valueError =>
        .ok (join2 (join2 m.author s) (titleOrUnknown m.book_title))
      | .error e => .error e
  | none => .ok (join2 m.author (titleOrUnknown m.book_title))

example :
    get_book_path dbA ⟨"Isaac Asimov", "Foundation and Empire",
      some "Foundation", some "2.0"⟩ =
    .ok "Isaac Asimov/Foundation/Book 2" := by decide
example :
    get_book_path dbA ⟨"A", "T", some "S", some "two"⟩ = .ok "A/S/T" := by
  decide
example :
    get_book_path dbA ⟨"A", "T", some "S", some "inf"⟩ =
    .error .overflowError := by decide
example : get_book_path dbA ⟨"A", "T", none, none⟩ = .ok "A/T" := by decide
example :
    get_book_path dbA ⟨"A", "", none, none⟩ = .ok "A/Unknown Book" := by
  decide

/-! ## The path index and the FUSE query surface -/

/-- The two index structures of `BookFS`: `files` (virtual → real path,
a Python dict) and `directories` (a Python set). -/
structure FSIndex where
  files : List (String × String)
  directories : List String
deriving DecidableEq

/-- Error kinds surfaced by the FUSE operations: `notFound` is the raised
`FileNotFoundError(ENOENT)`, `accessDenied` the `OSError(EACCES)`, and
`ioError` the `OSError(EIO)`. -/
inductive FsError : Type where
  | notFound : FsError
  | accessDenied : FsError
  | ioError : FsError
deriving DecidableEq

/-- The attribute dictionary returned by `getattr`: `st_size` is present
only for regular files. -/
structure PyStat where
  st_mode : Nat
  st_nlink : Nat
  st_size : Option Nat
deriving DecidableEq

/-- Directory attributes: `0o755 | 0o040000`, two links. -/
def dirStat : PyStat := ⟨0o755 ||| 0o040000, 2, none⟩

/-- Regular-file attributes: `0o644 | 0o100000`, one link, live size. -/
def fileStat (size : Nat) : PyStat := ⟨0o644 ||| 0o100000, 1, some size⟩

/-- `BookFS.getattr`.  `size` models `os.path.getsize` on real paths
(`none` is a raised `OSError`/`IOError`, turned into `NotFound`). -/
def pygetattr (fs : FSIndex) (size : String → Option Nat) (path0 : String) :
    Except FsError PyStat :=
  let path := normpath path0
  if path = "/" then .ok dirStat
  else
    match lookupKey fs.files path with
    | some real =>
      match size real with
      | some n => .ok (fileStat n)
      | none => .error .notFound
    | none =>
      if path ∈ fs.directories then .ok dirStat
      else .error .notFound

/-- `BookFS.readdir`.  Returns `['.', '..']` plus the basenames of every
index entry whose `os.path.dirname` equals the (normalized) queried path;
the Python `set` is modelled by first-occurrence deduplication. -/
def pyreaddir (fs : FSIndex) (path0 : String) : List String :=
  let path1 := normpath path0
  let path := if path1 = "." then "/" else path1
  let dirEntries :=
    (fs.directories.filter (fun d => dirname d = path)).map basename
  let fileEntries :=
    ((fs.files.map Prod.fst).filter (fun f => dirname f = path)).map basename
  [".", ".."] ++ dedupKeepFirst (dirEntries ++ fileEntries)

/-- `BookFS.read`.  `content` models the bytes of real files (`none` is a
raised `OSError`/`IOError` from `open`/`seek`/`read`, turned into `EIO`);
seek-then-read is `drop offset` then `take size`. -/
def pyread (fs : FSIndex) (content : String → Option (List Nat))
    (path0 : String) (size offset : Nat) : Except FsError (List Nat) :=
  let path := normpath path0
  match lookupKey fs.files path with
  | some real =>
    match content real with
    | some bytes => .ok ((bytes.drop offset).take size)
    | none => .error .ioError
  | none => .error .notFound

/-- `BookFS.create`: always raises `EACCES`; the pair makes the (absent)
state change explicit. -/
def pycreate (fs : FSIndex) (path : String) (mode : Nat) :
    Except FsError Unit × FSIndex := (.error .accessDenied, fs)

/-- `BookFS.write`: always raises `EACCES`. -/
def pywrite (fs : FSIndex) (path : String) (data : List Nat) (offset : Nat) :
    Except FsError Unit × FSIndex := (.error .accessDenied, fs)

/-- `BookFS.mkdir`: always raises `EACCES`. -/
def pymkdir (fs : FSIndex) (path : String) (mode : Nat) :
    Except FsError Unit × FSIndex := (.error .accessDenied, fs)

/-- `BookFS.rmdir`: always raises `EACCES`. -/
def pyrmdir (fs : FSIndex) (path : String) :
    Except FsError Unit × FSIndex := (.error .accessDenied, fs)

/-- `BookFS.unlink`: always raises `EACCES`. -/
def pyunlink (fs : FSIndex) (path : String) :
    Except FsError Unit × FSIndex := (.error .accessDenied, fs)

/-! ## The tree builder (`BookFS.build_file_structure`) -/

mutual
/-- A real on-disk directory (the part of the world `os.walk` can see):
its file names and its named subdirectories. -/
inductive DirTree : Type where
  | node : List String → DirForest → DirTree

/-- The ordered list of named subdirectories of a `DirTree`. -/
inductive DirForest : Type where
  | nil : DirForest
  | cons : String → DirTree → DirForest → DirForest
end

/-- File names of the top directory of a tree. -/
def DirTree.rootFiles : DirTree → List String
  | .node fs _ => fs

/-- Names of the subdirectories in a forest. -/
def DirForest.names : DirForest → List String
  | .nil => []
  | .cons n _ rest => n :: rest.names

/-- One `(root, dirs, files)` triple yielded by `os.walk`, together with
the `os.path.relpath(root, book_dir)` value the program computes for it. -/
structure WTriple where
  root : String
  rel : String
  dnames : List String
  fnames : List String
deriving DecidableEq

/-- Extend a relative path by one name, the way successive `os.walk` roots
relate under `os.path.relpath` (the book directory itself is `"."`). -/
def relExtend (rel name : String) : String :=
  if rel = "." then name else join2 rel name

mutual
/-- The triples `os.walk(book_dir)` yields for a tree, top-down, each
paired with its `relpath` from the book directory. -/
def walkT (root rel : String) : DirTree → List WTriple
  | .node fs sub => ⟨root, rel, sub.names, fs⟩ :: walkF root rel sub

/-- `walkT` mapped over a forest of subdirectories, in order. -/
def walkF (root rel : String) : DirForest → List WTriple
  | .nil => []
  | .cons n t rest =>
    walkT (join2 root n) (relExtend rel n) t ++ walkF root rel rest
end

/-- One book as discovered by `find_metadata_files`: the outcome of
`ET.parse` on its `metadata.opf`, the real book directory
(`os.path.dirname(metadata_file)`), and the real directory tree under it
(the input `os.walk` will enumerate).  A discovered book always has
`"metadata.opf"` among `tree.rootFiles`. -/
structure Book where
  doc : Except Unit OpfDoc
  dir : String
  tree : DirTree

/-- The body of the per-triple loop of `build_file_structure`: map every
file of the triple into `files` and add every subdirectory to
`directories`, rebasing the relative path under the virtual book path. -/
def registerTriple (vbp : String) (st : FSIndex) (t : WTriple) : FSIndex :=
  t.dnames.foldl
    (fun acc d => ⟨acc.files, addSet acc.directories
      (normpath (join2 (join2 "/" vbp)
        (if t.rel ≠ "." then join2 t.rel d else d)))⟩)
    (t.fnames.foldl
      (fun acc f => ⟨setKey acc.files
        (normpath (join2 (join2 "/" vbp)
          (if t.rel ≠ "." then join2 t.rel f else f)))
        (join2 t.root f), acc.directories⟩)
      st)

/-- The per-book body of `build_file_structure`: parse the descriptor,
derive the virtual book path, register every ancestor prefix of it as a
directory, then walk the real book directory and register its contents. -/
def processBook (db : UnicodeDB) (st : FSIndex) (b : Book) :
    Except PyError FSIndex :=
  match parse_metadata db b.doc with
  | .error e => .error e
  | .ok md =>
    match get_book_path db md with
    | .error e => .error e
    | .ok vbp =>
      let comps := splitOnStr '/' (pyStripChar '/' vbp)
      let st1 := (List.range comps.length).foldl (fun acc i =>
          ⟨acc.files, addSet acc.directories
            (normpath ("/" ++ joinSlash (comps.take (i + 1))))⟩) st
      .ok ((walkT b.dir "." b.tree).foldl (registerTriple vbp) st1)

/-- `BookFS.build_file_structure`, over the discovered books in walk
order.  An uncaught exception from `get_book_path` (an `OverflowError`)
aborts the whole build. -/
def build_file_structure (db : UnicodeDB) (books : List Book) :
    Except PyError FSIndex :=
  books.foldlM (processBook db) ⟨[], []⟩

/-- A one-book library used in several concrete evaluations below. -/
def bookPlain : Book :=
  ⟨.ok ⟨some (some "Ann"), some (some "Tide"), none, none⟩, "/lib/b1",
    .node ["metadata.opf", "tide.epub"] .nil⟩

example :
    build_file_structure dbA [bookPlain] =
    .ok ⟨[("/Ann/Tide/metadata.opf", "/lib/b1/metadata.opf"),
          ("/Ann/Tide/tide.epub", "/lib/b1/tide.epub")],
         ["/Ann", "/Ann/Tide"]⟩ := by decide

example :
    build_file_structure dbA
      [⟨.ok ⟨some (some "Ann"), some (some "Tide"), none, none⟩, "/lib/b1",
        .node ["metadata.opf"] (.cons "extras" (.node ["cover.jpg"] .nil) .nil)⟩] =
    .ok ⟨[("/Ann/Tide/metadata.opf", "/lib/b1/metadata.opf"),
          ("/Ann/Tide/extras/cover.jpg", "/lib/b1/extras/cover.jpg")],
         ["/Ann", "/Ann/Tide", "/Ann/Tide/extras"]⟩ := by decide

/-- A series book: author `A`, series `S`, index `1.0`, virtual book path
`A/S/Book 1`. -/
def bookSeries : Book :=
  ⟨.ok ⟨some (some "A"), some (some "X"), some (some "S"), some (some "1.0")⟩,
    "/lib/s1", .node ["metadata.opf"] .nil⟩

/-- A standalone book titled `S` by the same author, whose directory also
contains a data file literally named `Book 1`: its virtual path `A/S`
collides with the series directory of `bookSeries`, and the data file
lands on the virtual path `/A/S/Book 1`, which is simultaneously a
directory of the index. -/
def bookClash : Book :=
  ⟨.ok ⟨some (some "A"), some (some "S"), none, none⟩,
    "/lib/s2", .node ["metadata.opf", "Book 1"] .nil⟩

/-- The index built from the two colliding books. -/
def fsOverlap : FSIndex :=
  match build_file_structure dbA [bookSeries, bookClash] with
  | .ok fs => fs
  | .error _ => ⟨[], []⟩

example :
    fsOverlap =
    ⟨[("/A/S/Book 1/metadata.opf", "/lib/s1/metadata.opf"),
      ("/A/S/metadata.opf", "/lib/s2/metadata.opf"),
      ("/A/S/Book 1", "/lib/s2/Book 1")],
     ["/A", "/A/S", "/A/S/Book 1"]⟩ := by decide

/-- A book whose `dc:creator` text is `".."` (kept verbatim by
`sanitize_name`, since `'.'` is in the safe set). -/
def bookDotDot : Book :=
  ⟨.ok ⟨some (some ".."), some (some "T"), none, none⟩,
    "/lib/d1", .node ["metadata.opf"] .nil⟩

/-- The index built from the `".."`-author book: normalizing the first
ancestor prefix `"/.."` yields `"/"`, which is stored in `directories`. -/
def fsDotDot : FSIndex :=
  match build_file_structure dbA [bookDotDot] with
  | .ok fs => fs
  | .error _ => ⟨[], []⟩

example :
    fsDotDot =
    ⟨[("/T/metadata.opf", "/lib/d1/metadata.opf")], ["/", "/T"]⟩ := by decide

/-- A second plain book by a different author. -/
def bookPlainB : Book :=
  ⟨.ok ⟨some (some "Bob"), some (some "War"), none, none⟩, "/lib/b2",
    .node ["metadata.opf"] .nil⟩

/-- The index built from two single-book author directories. -/
def fsTwoAuthors : FSIndex :=
  match build_file_structure dbA [bookPlain, bookPlainB] with
  | .ok fs => fs
  | .error _ => ⟨[], []⟩

example : pyreaddir fsTwoAuthors "/" = [".", "..", "Ann", "Bob"] := by decide
example : pyreaddir fsOverlap "/A/S/Book 1" = [".", "..", "metadata.opf"] := by
  decide

/-! ## Basic facts about the character database -/

/-- An ASCII whitespace character is never alphanumeric. -/
lemma asciiSpaceB_not_alnum (c : Char) (h : asciiSpaceB c = true) :
    c.isAlphanum = false := by
  simp only [asciiSpaceB, Bool.or_eq_true, beq_iff_eq] at h
  rcases h with ((((((((h | h) | h) | h) | h) | h) | h) | h) | h) | h <;>
    subst h <;> decide

/-- The pure-ASCII database satisfies all the documented facts. -/
theorem validDB_dbA : ValidDB dbA := by
  refine ⟨fun c _ => rfl, fun c _ => rfl, fun c h => ?_⟩
  by_cases hs : asciiSpaceB c = true
  · have := asciiSpaceB_not_alnum c hs
    simp only [dbA] at h
    rw [h] at this
    exact absurd this (by simp)
  · simpa [dbA] using hs

/-! ## Membership through the Python-set model -/

/-- Membership in the seen-list deduplication. -/
lemma mem_dedupSeen (l : List String) :
    ∀ (seen : List String) (x : String),
      x ∈ dedupSeen seen l ↔ x ∈ l ∧ x ∉ seen := by
  induction l with
  | nil => simp [dedupSeen]
  | cons y rest ih =>
    intro seen x
    simp only [dedupSeen]
    by_cases hy : y ∈ seen
    · simp only [if_pos hy, ih]
      constructor
      · exact fun ⟨h1, h2⟩ => ⟨List.mem_cons_of_mem _ h1, h2⟩
      · rintro ⟨h1, h2⟩
        rcases List.mem_cons.mp h1 with rfl | h1
        · exact absurd hy h2
        · exact ⟨h1, h2⟩
    · simp only [if_neg hy, List.mem_cons, ih]
      constructor
      · rintro (rfl | ⟨h1, h2⟩)
        · exact ⟨Or.inl rfl, hy⟩
        · exact ⟨Or.inr h1, fun hx => h2 (Or.inr hx)⟩
      · rintro ⟨rfl | h1, h2⟩
        · exact Or.inl rfl
        · by_cases hxy : x = y
          · exact Or.inl hxy
          · refine Or.inr ⟨h1, ?_⟩
            rintro (rfl | hc)
            · exact hxy rfl
            · exact h2 hc

/-- Deduplication preserves membership. -/
lemma mem_dedupKeepFirst (l : List String) (x : String) :
    x ∈ dedupKeepFirst l ↔ x ∈ l := by
  simp [dedupKeepFirst, mem_dedupSeen]

/-! ## Claim theorems: the rejecting mutators (C5) -/

/-- C5: every call to `create`, `write`, `mkdir`, `rmdir` and `unlink`, on
every state and arguments, fails with `AccessDenied` (`EACCES`) and
returns the index unchanged. -/
theorem mutators_reject (fs : FSIndex) (p1 p2 p3 p4 p5 : String)
    (mode1 mode3 : Nat) (data : List Nat) (offset : Nat) :
    pycreate fs p1 mode1 = (.error .accessDenied, fs) ∧
    pywrite fs p2 data offset = (.error .accessDenied, fs) ∧
    pymkdir fs p3 mode3 = (.error .accessDenied, fs) ∧
    pyrmdir fs p4 = (.error .accessDenied, fs) ∧
    pyunlink fs p5 = (.error .accessDenied, fs) :=
  ⟨rfl, rfl, rfl, rfl, rfl⟩

/-! ## Claim theorems: `read` (C4) -/

/-- C4: `read` fails with `NotFound` exactly when the (normalized) path is
not in `files`; on an indexed file it returns `size` bytes of the real
file starting at `offset` (empty when `offset` is at or past end of file),
and an underlying read failure surfaces as `IOError`. -/
theorem read_spec (fs : FSIndex) (content : String → Option (List Nat))
    (p : String) (size offset : Nat) :
    (pyread fs content p size offset = .error .notFound ↔
      lookupKey fs.files (normpath p) = none) ∧
    (∀ real bytes, lookupKey fs.files (normpath p) = some real →
      content real = some bytes →
      pyread fs content p size offset = .ok ((bytes.drop offset).take size)) ∧
    (∀ real bytes, lookupKey fs.files (normpath p) = some real →
      content real = some bytes → bytes.length ≤ offset →
      pyread fs content p size offset = .ok []) ∧
    (∀ real, lookupKey fs.files (normpath p) = some real →
      content real = none →
      pyread fs content p size offset = .error .ioError) := by
  refine ⟨?_, ?_, ?_, ?_⟩
  · constructor
    · intro h
      by_contra hk
      rcases Option.ne_none_iff_exists'.mp hk with ⟨real, hr⟩
      simp only [pyread, hr] at h
      cases hc : content real <;> simp [hc] at h
    · intro h
      simp [pyread, h]
  · intro real bytes hr hc
    simp [pyread, hr, hc]
  · intro real bytes hr hc hoff
    have : bytes.drop offset = [] := List.drop_eq_nil_of_le hoff
    simp [pyread, hr, hc, this]
  · intro real hr hc
    simp [pyread, hr, hc]

/-- A tiny concrete index used to instantiate the query theorems. -/
def fsTiny : FSIndex := ⟨[("/a", "r")], ["/d"]⟩

/-- Concrete byte contents for `fsTiny`'s single real file. -/
def contentTiny (s : String) : Option (List Nat) :=
  if s = "r" then some [7, 8, 9] else none

/-- Witness for C4 at concrete inputs: a mid-file read, a past-end read,
and a miss. -/
theorem read_spec_inst :
    pyread fsTiny contentTiny "/a" 2 1 = .ok [8, 9] ∧
    pyread fsTiny contentTiny "/a" 2 5 = .ok [] ∧
    pyread fsTiny contentTiny "/zz" 1 0 = .error .notFound := by
  refine ⟨?_, ?_, ?_⟩
  · exact (read_spec fsTiny contentTiny "/a" 2 1).2.1 "r" [7, 8, 9] (by decide)
      (by decide)
  · exact (read_spec fsTiny contentTiny "/a" 2 5).2.2.1 "r" [7, 8, 9]
      (by decide) (by decide) (by decide)
  · exact (read_spec fsTiny contentTiny "/zz" 1 0).1.mpr (by decide)

/-! ## Claim theorems: `getattr` (C3) -/

/-- C3 (amended): `getattr` returns directory attributes for `/`; for a
path in `files` it returns file attributes with the live size, or
`NotFound` when the live size lookup fails (in both cases regardless of
`directories`); for a path in `directories` only, directory attributes;
otherwise `NotFound`.  Membership in `files` takes precedence over
membership in `directories`. -/
theorem getattr_spec (fs : FSIndex) (size : String → Option Nat)
    (p : String) :
    (normpath p = "/" → pygetattr fs size p = .ok dirStat) ∧
    (∀ real n, normpath p ≠ "/" →
      lookupKey fs.files (normpath p) = some real → size real = some n →
      pygetattr fs size p = .ok (fileStat n)) ∧
    (∀ real, normpath p ≠ "/" →
      lookupKey fs.files (normpath p) = some real → size real = none →
      pygetattr fs size p = .error .notFound) ∧
    (normpath p ≠ "/" → lookupKey fs.files (normpath p) = none →
      normpath p ∈ fs.directories → pygetattr fs size p = .ok dirStat) ∧
    (normpath p ≠ "/" → lookupKey fs.files (normpath p) = none →
      normpath p ∉ fs.directories →
      pygetattr fs size p = .error .notFound) := by
  refine ⟨?_, ?_, ?_, ?_, ?_⟩
  · intro h
    simp [pygetattr, h]
  · intro real n h hr hs
    simp [pygetattr, h, hr, hs]
  · intro real h hr hs
    simp [pygetattr, h, hr, hs]
  · intro h hr hd
    simp [pygetattr, h, hr, hd]
  · intro h hr hd
    simp [pygetattr, h, hr, hd]

/-- Witness for C3's amended theorem at concrete inputs. -/
theorem getattr_spec_inst :
    pygetattr fsTiny (fun _ => some 3) "/a" = .ok (fileStat 3) ∧
    pygetattr fsTiny (fun _ => none) "/a" = .error .notFound ∧
    pygetattr fsTiny (fun _ => some 3) "/d" = .ok dirStat ∧
    pygetattr fsTiny (fun _ => some 3) "/zz" = .error .notFound ∧
    pygetattr fsTiny (fun _ => some 3) "/" = .ok dirStat := by
  refine ⟨?_, ?_, ?_, ?_, ?_⟩
  · exact (getattr_spec fsTiny (fun _ => some 3) "/a").2.1 "r" 3 (by decide)
      (by decide) rfl
  · exact (getattr_spec fsTiny (fun _ => none) "/a").2.2.1 "r" (by decide)
      (by decide) rfl
  · exact (getattr_spec fsTiny (fun _ => some 3) "/d").2.2.2.1 (by decide)
      (by decide) (by decide)
  · exact (getattr_spec fsTiny (fun _ => some 3) "/zz").2.2.2.2 (by decide)
      (by decide) (by decide)
  · exact (getattr_spec fsTiny (fun _ => some 3) "/").1 (by decide)

/-- C3 counterexample: in the index built from `bookSeries` and
`bookClash`, the virtual path `/A/S/Book 1` is a member of `directories`,
yet `getattr` returns regular-file attributes for it (the `files` check
runs first), contradicting the claim that a path present in `directories`
receives directory attributes. -/
theorem getattr_file_shadows_dir :
    "/A/S/Book 1" ∈ fsOverlap.directories ∧
    build_file_structure dbA [bookSeries, bookClash] = .ok fsOverlap ∧
    pygetattr fsOverlap (fun _ => some 4) "/A/S/Book 1" = .ok (fileStat 4) ∧
    pygetattr fsOverlap (fun _ => some 4) "/A/S/Book 1" ≠ .ok dirStat := by
  refine ⟨by decide, by decide, by decide, by decide⟩

/-! ## Claim theorems: `readdir` (C9) -/

/-- The directory `readdir` actually lists: the normalized queried path,
with `"."` (the normalization of an empty or dot path) special-cased to
the root. -/
def readdirTarget (p : String) : String :=
  if normpath p = "." then "/" else normpath p

/-- C9 (amended): `readdir` returns `.` and `..` plus exactly the
basenames of the index entries (directories and files) whose immediate
parent directory equals the queried path; a queried path that no index
entry has as parent — in particular an absent one — yields just `.` and
`..`; and on the two-author library, listing `/` returns exactly `.`,
`..` and the two author names.  (A queried path that is a file can still
receive entries when a colliding directory subtree placed children under
it, see the counterexample.) -/
theorem readdir_spec (fs : FSIndex) (p : String) :
    (∀ e, e ∈ pyreaddir fs p ↔
      e = "." ∨ e = ".." ∨
      (∃ d, d ∈ fs.directories ∧ dirname d = readdirTarget p ∧
        basename d = e) ∨
      (∃ k, k ∈ fs.files.map Prod.fst ∧ dirname k = readdirTarget p ∧
        basename k = e)) ∧
    ((∀ d ∈ fs.directories, dirname d ≠ readdirTarget p) →
      (∀ k ∈ fs.files.map Prod.fst, dirname k ≠ readdirTarget p) →
      pyreaddir fs p = [".", ".."]) ∧
    pyreaddir fsTwoAuthors "/" = [".", "..", "Ann", "Bob"] := by
  refine ⟨?_, ?_, by decide⟩
  · intro e
    simp only [pyreaddir, readdirTarget, List.mem_append, List.mem_cons,
      List.not_mem_nil, or_false, mem_dedupKeepFirst, List.mem_map,
      List.mem_filter, decide_eq_true_eq]
    constructor
    · rintro ((rfl | rfl) | ⟨d, ⟨hd, hp⟩, rfl⟩ | ⟨k, ⟨hk, hp⟩, rfl⟩)
      · exact Or.inl rfl
      · exact Or.inr (Or.inl rfl)
      · exact Or.inr (Or.inr (Or.inl ⟨d, hd, hp, rfl⟩))
      · exact Or.inr (Or.inr (Or.inr ⟨k, hk, hp, rfl⟩))
    · rintro (rfl | rfl | ⟨d, hd, hp, rfl⟩ | ⟨k, hk, hp, rfl⟩)
      · exact Or.inl (Or.inl rfl)
      · exact Or.inl (Or.inr rfl)
      · exact Or.inr (Or.inl ⟨d, ⟨hd, hp⟩, rfl⟩)
      · exact Or.inr (Or.inr ⟨k, ⟨hk, hp⟩, rfl⟩)
  · intro hd hk
    have h1 : fs.directories.filter
        (fun d => dirname d = readdirTarget p) = [] := by
      refine List.filter_eq_nil_iff.mpr fun d hdm => ?_
      simpa using hd d hdm
    have h2 : (fs.files.map Prod.fst).filter
        (fun k => dirname k = readdirTarget p) = [] := by
      refine List.filter_eq_nil_iff.mpr fun k hkm => ?_
      simpa using hk k hkm
    simp only [pyreaddir, readdirTarget] at h1 h2 ⊢
    rw [h1, h2]
    rfl

/-- Witness for C9's amended theorem: a path with no children lists as
just `.` and `..`. -/
theorem readdir_spec_inst : pyreaddir fsTiny "/nope" = [".", ".."] :=
  (readdir_spec fsTiny "/nope").2.1 (by decide) (by decide)

/-- C9 counterexample: `/A/S/Book 1` is a file of the overlap index (so
the claim says listing it yields only `.` and `..`), yet `readdir`
returns an extra entry, because a colliding book placed a child under the
same virtual path. -/
theorem readdir_file_with_children :
    "/A/S/Book 1" ∈ fsOverlap.files.map Prod.fst ∧
    build_file_structure dbA [bookSeries, bookClash] = .ok fsOverlap ∧
    pyreaddir fsOverlap "/A/S/Book 1" = [".", "..", "metadata.opf"] ∧
    pyreaddir fsOverlap "/A/S/Book 1" ≠ [".", ".."] := by
  refine ⟨by decide, by decide, by decide, by decide⟩

/-! ## Claim theorems: `get_book_path` (C2) -/

/-- C2 (amended): with a (truthy) series, a series index whose
`int(float(...))` conversion succeeds — the string, after the Unicode
decimal-digit-and-space transform, parses as a float literal and rounds
to a finite binary64 — gives `{author}/{series}/Book {n}` with `n` that
double truncated toward zero (so IEEE rounding happens before
truncation); a missing index (`float(None)` raises `TypeError`) or one
whose conversion raises `ValueError` (an unparsable literal, or NaN)
falls back to `{author}/{series}/{title-or-'Unknown Book'}` without
raising; but a conversion that raises `OverflowError` — an infinite
literal, or a finite literal beyond the double range such as `1e400` —
escapes uncaught.  Without a truthy series the path is
`{author}/{title-or-'Unknown Book'}`. -/
theorem get_book_path_spec (db : UnicodeDB) (m : BookMetadata) :
    (∀ s n, m.series = some s → s ≠ "" →
      pyIntFloat db m.series_index = .ok n →
      get_book_path db m =
        .ok (join2 (join2 m.author s) ("Book " ++ intStr n))) ∧
    (∀ s, m.series = some s → s ≠ "" → m.series_index = none →
      get_book_path db m =
        .ok (join2 (join2 m.author s) (titleOrUnknown m.book_title))) ∧
    (∀ s idx, m.series = some s → s ≠ "" → m.series_index = some idx →
      pyFloatParse (decTransform db idx) = none →
      get_book_path db m =
        .ok (join2 (join2 m.author s) (titleOrUnknown m.book_title))) ∧
    (∀ s idx, m.series = some s → s ≠ "" → m.series_index = some idx →
      pyFloatParse (decTransform db idx) = some .nan →
      get_book_path db m =
        .ok (join2 (join2 m.author s) (titleOrUnknown m.book_title))) ∧
    (∀ s, m.series = some s → s ≠ "" →
      pyIntFloat db m.series_index = .error .overflowError →
      get_book_path db m = .error .overflowError) ∧
    ((m.series = none ∨ m.series = some "") →
      get_book_path db m =
        .ok (join2 m.author (titleOrUnknown m.book_title))) := by
  refine ⟨?_, ?_, ?_, ?_, ?_, ?_⟩
  · intro s n hs hne hconv
    simp [get_book_path, hs, hne, hconv]
  · intro s hs hne hidx
    simp [get_book_path, hs, hne, pyIntFloat, hidx]
  · intro s idx hs hne hidx hparse
    simp [get_book_path, hs, hne, pyIntFloat, hidx, hparse]
  · intro s idx hs hne hidx hparse
    simp [get_book_path, hs, hne, pyIntFloat, hidx, hparse]
  · intro s hs hne hconv
    simp [get_book_path, hs, hne, hconv]
  · rintro (hs | hs) <;> simp [get_book_path, hs]

/-- Witness for C2's amended theorem: the claim's own example (`2.0`
gives `Book 2`), a rounded index (`2.9999999999999999` is the double
`3.0`, giving `Book 3`), and a non-numeric index falling back to the
title. -/
theorem get_book_path_spec_inst :
    get_book_path dbA ⟨"Author", "T", some "Foundation", some "2.0"⟩ =
      .ok "Author/Foundation/Book 2" ∧
    get_book_path dbA
        ⟨"A", "T", some "S", some "2.9999999999999999"⟩ =
      .ok "A/S/Book 3" ∧
    get_book_path dbA ⟨"A", "T", some "S", some "two"⟩ = .ok "A/S/T" := by
  refine ⟨?_, ?_, ?_⟩
  · have h := (get_book_path_spec dbA
        ⟨"Author", "T", some "Foundation", some "2.0"⟩).1
      "Foundation" 2 rfl (by decide) (by decide)
    rw [h]
    decide
  · have h := (get_book_path_spec dbA
        ⟨"A", "T", some "S", some "2.9999999999999999"⟩).1
      "S" 3 rfl (by decide) (by decide)
    rw [h]
    decide
  · have h := (get_book_path_spec dbA ⟨"A", "T", some "S", some "two"⟩).2.2.1
      "S" "two" rfl (by decide) rfl (by decide)
    rw [h]
    decide

/-- C2 counterexample: a series index of `"inf"` — or of `"1e400"`, a
finite literal whose value overflows the double range — is accepted by
`float(...)` but makes `int(...)` raise `OverflowError`, which the
`except (TypeError, ValueError)` clause does not catch: `get_book_path`
raises instead of falling back.  And for index `"2.9999999999999999"`
the program produces `Book 3`, not the `Book 2` that truncating the
written index would give, because `float()` rounds to the nearest
double first. -/
theorem get_book_path_inf_raises :
    get_book_path dbA ⟨"A", "T", some "S", some "inf"⟩ =
      .error .overflowError ∧
    get_book_path dbA ⟨"A", "T", some "S", some "1e400"⟩ =
      .error .overflowError ∧
    get_book_path dbA ⟨"A", "T", some "S", some "2.9999999999999999"⟩ =
      .ok "A/S/Book 3" := by decide

/-! ## Structure of Python whitespace splitting -/

/-- Characters of the words produced by the split `foldr` are
non-whitespace characters of the input, and every word after the head is
non-empty. -/
lemma foldr_split_props (p : Char → Bool) (m : List Char) :
    (∀ w ∈ m.foldr (splitWsStep p) [], ∀ c ∈ w, p c = false ∧ c ∈ m) ∧
    (∀ w ∈ (m.foldr (splitWsStep p) []).tail, w ≠ []) := by
  induction m with
  | nil => simp
  | cons c rest ih =>
    rcases ih with ⟨ih1, ih2⟩
    rw [List.foldr_cons]
    by_cases hc : p c
    · simp only [splitWsStep, if_pos hc]
      cases hF : rest.foldr (splitWsStep p) [] with
      | nil => simp
      | cons w ws =>
        rw [hF] at ih1 ih2
        by_cases hw : w = []
        · simp only [if_pos hw]
          refine ⟨?_, ih2⟩
          intro w' hw' c' hc'
          rcases ih1 w' hw' c' hc' with ⟨h1, h2⟩
          exact ⟨h1, List.mem_cons_of_mem _ h2⟩
        · simp only [if_neg hw]
          constructor
          · intro w' hw' c' hc'
            rcases List.mem_cons.mp hw' with rfl | hw'
            · exact absurd hc' (List.not_mem_nil _)
            · rcases ih1 w' hw' c' hc' with ⟨h1, h2⟩
              exact ⟨h1, List.mem_cons_of_mem _ h2⟩
          · intro w' hw'
            simp only [List.tail_cons] at hw'
            rcases List.mem_cons.mp hw' with rfl | hw'
            · exact hw
            · exact ih2 w' hw'
    · simp only [splitWsStep, if_neg hc]
      have hcf : p c = false := by simpa using hc
      cases hF : rest.foldr (splitWsStep p) [] with
      | nil =>
        simp only [List.mem_singleton]
        refine ⟨?_, by simp⟩
        rintro w rfl c' hc'
        rcases List.mem_singleton.mp hc' with rfl
        exact ⟨hcf, List.mem_cons_self _ _⟩
      | cons w ws =>
        rw [hF] at ih1 ih2
        constructor
        · intro w' hw' c' hc'
          rcases List.mem_cons.mp hw' with rfl | hw'
          · rcases List.mem_cons.mp hc' with rfl | hc'
            · exact ⟨hcf, List.mem_cons_self _ _⟩
            · rcases ih1 w (List.mem_cons_self _ _) c' hc' with ⟨h1, h2⟩
              exact ⟨h1, List.mem_cons_of_mem _ h2⟩
          · rcases ih1 w' (List.mem_cons_of_mem _ hw') c' hc' with ⟨h1, h2⟩
            exact ⟨h1, List.mem_cons_of_mem _ h2⟩
        · simpa using ih2

/-- Every word of `pySplitWs` is non-empty and consists of non-whitespace
characters of the input. -/
lemma pySplitWs_words (p : Char → Bool) (m : List Char) :
    ∀ w ∈ pySplitWs p m, w ≠ [] ∧ ∀ c ∈ w, p c = false ∧ c ∈ m := by
  rcases foldr_split_props p m with ⟨h1, h2⟩
  intro w hw
  unfold pySplitWs at hw
  rcases hF : m.foldr (splitWsStep p) [] with _ | ⟨w0, ws⟩
  · rw [hF] at hw
    exact absurd hw (List.not_mem_nil _)
  · rw [hF] at hw h1 h2
    by_cases hw0 : w0 = []
    · simp only [if_pos hw0] at hw
      exact ⟨h2 w (by simpa using hw), h1 w (List.mem_cons_of_mem _ hw)⟩
    · simp only [if_neg hw0] at hw
      rcases List.mem_cons.mp hw with rfl | hw
      · exact ⟨hw0, h1 w (List.mem_cons_self _ _)⟩
      · exact ⟨h2 w (by simpa using hw), h1 w (List.mem_cons_of_mem _ hw)⟩

/-- A leading whitespace character does not change the split. -/
lemma pySplitWs_cons_of_ws (p : Char → Bool) (c : Char) (rest : List Char)
    (hc : p c = true) : pySplitWs p (c :: rest) = pySplitWs p rest := by
  have htail := (foldr_split_props p rest).2
  unfold pySplitWs
  rw [List.foldr_cons]
  cases hF : rest.foldr (splitWsStep p) [] with
  | nil => simp [splitWsStep, hc]
  | cons w ws =>
    rw [hF] at htail
    by_cases hw : w = []
    · simp [splitWsStep, hc, hw]
    · simp [splitWsStep, hc, hw]

/-- Leading whitespace (via `dropWhile`) does not change the split. -/
lemma pySplitWs_dropWhile (p : Char → Bool) (l : List Char) :
    pySplitWs p (l.dropWhile p) = pySplitWs p l := by
  induction l with
  | nil => rfl
  | cons c rest ih =>
    by_cases hc : p c
    · rw [List.dropWhile_cons_of_pos hc, ih, pySplitWs_cons_of_ws p c rest hc]
    · rw [List.dropWhile_cons_of_neg hc]

/-- A trailing whitespace character does not change the split. -/
lemma pySplitWs_append_ws (p : Char → Bool) (l : List Char) (c : Char)
    (hc : p c = true) : pySplitWs p (l ++ [c]) = pySplitWs p l := by
  unfold pySplitWs
  rw [List.foldr_append]
  simp [splitWsStep, hc]

/-- Stripping is redundant before splitting (Python's
`s.strip().split()` equals `s.split()`). -/
lemma pySplitWs_pyStrip (p : Char → Bool) (l : List Char) :
    pySplitWs p (pyStrip p l) = pySplitWs p l := by
  unfold pyStrip
  have hback : ∀ l' : List Char,
      pySplitWs p ((l'.reverse.dropWhile p).reverse) = pySplitWs p l' := by
    intro l'
    induction l' using List.reverseRecOn with
    | nil => rfl
    | append_singleton l' c ih =>
      by_cases hc : p c
      · rw [List.reverse_append]
        simp only [List.reverse_singleton, List.singleton_append,
          List.dropWhile_cons_of_pos hc]
        rw [ih, pySplitWs_append_ws p l' c hc]
      · rw [List.reverse_append]
        simp only [List.reverse_singleton, List.singleton_append,
          List.dropWhile_cons_of_neg hc]
        simp
  rw [hback, pySplitWs_dropWhile]

/-! ## Join/split round trips -/

/-- Unfolding `joinSpace` on a cons with a non-empty tail. -/
lemma joinSpace_cons (w : List Char) (ws : List (List Char)) (h : ws ≠ []) :
    joinSpace (w :: ws) = w ++ ' ' :: joinSpace ws := by
  cases ws with
  | nil => exact absurd rfl h
  | cons w' ws' => rfl

/-- A character of a space-join is a character of some word, or a space. -/
lemma mem_joinSpace (ws : List (List Char)) (c : Char)
    (h : c ∈ joinSpace ws) : (∃ w ∈ ws, c ∈ w) ∨ c = ' ' := by
  induction ws with
  | nil => exact absurd h (List.not_mem_nil _)
  | cons w ws ih =>
    cases ws with
    | nil =>
      simp only [joinSpace] at h
      exact Or.inl ⟨w, List.mem_cons_self _ _, h⟩
    | cons w' ws' =>
      rw [joinSpace_cons w _ (by simp)] at h
      rcases List.mem_append.mp h with h | h
      · exact Or.inl ⟨w, List.mem_cons_self _ _, h⟩
      · rcases List.mem_cons.mp h with rfl | h
        · exact Or.inr rfl
        · rcases ih h with ⟨w'', hw'', hc⟩ | rfl
          · exact Or.inl ⟨w'', List.mem_cons_of_mem _ hw'', hc⟩
          · exact Or.inr rfl

/-- A space-join of non-empty words is non-empty. -/
lemma joinSpace_ne_nil (w : List Char) (ws : List (List Char))
    (hw : w ≠ []) : joinSpace (w :: ws) ≠ [] := by
  cases ws with
  | nil => simpa [joinSpace] using hw
  | cons w' ws' =>
    rw [joinSpace_cons w _ (by simp)]
    cases w with
    | nil => exact absurd rfl hw
    | cons c w'' => simp

/-- The head of a space-join of words whose head word is non-empty. -/
lemma joinSpace_head? (w : List Char) (ws : List (List Char))
    (hw : w ≠ []) : (joinSpace (w :: ws)).head? = w.head? := by
  cases ws with
  | nil => rfl
  | cons w' ws' =>
    rw [joinSpace_cons w _ (by simp)]
    cases w with
    | nil => exact absurd rfl hw
    | cons c w'' => rfl

/-- The last character of a space-join of non-empty words is the last
character of some word. -/
lemma joinSpace_getLast? (ws : List (List Char))
    (hws : ∀ w ∈ ws, w ≠ []) (c : Char)
    (h : (joinSpace ws).getLast? = some c) :
    ∃ w ∈ ws, w.getLast? = some c := by
  induction ws with
  | nil => simp [joinSpace] at h
  | cons w ws ih =>
    cases ws with
    | nil =>
      simp only [joinSpace] at h
      exact ⟨w, List.mem_cons_self _ _, h⟩
    | cons w' ws' =>
      rw [joinSpace_cons w _ (by simp)] at h
      have hne : joinSpace (w' :: ws') ≠ [] :=
        joinSpace_ne_nil w' ws' (hws w' (by simp))
      rw [List.getLast?_append_cons] at h
      cases hj : joinSpace (w' :: ws') with
      | nil => exact absurd hj hne
      | cons x t =>
        rw [hj, List.getLast?_cons_cons] at h
        have := ih (fun u hu => hws u (List.mem_cons_of_mem _ hu))
          (by rw [hj]; exact h)
        rcases this with ⟨u, hu, hc⟩
        exact ⟨u, List.mem_cons_of_mem _ hu, hc⟩

/-- A list whose first and last characters are not whitespace is
unchanged by stripping. -/
lemma pyStrip_eq_self (p : Char → Bool) (l : List Char)
    (h1 : ∀ c, l.head? = some c → p c = false)
    (h2 : ∀ c, l.getLast? = some c → p c = false) : pyStrip p l = l := by
  unfold pyStrip
  have e1 : l.dropWhile p = l := by
    cases l with
    | nil => rfl
    | cons c t => rw [List.dropWhile_cons_of_neg (by simp [h1 c rfl])]
  rw [e1]
  have e2 : l.reverse.dropWhile p = l.reverse := by
    cases hr : l.reverse with
    | nil => rfl
    | cons c t =>
      have : l.getLast? = some c := by
        rw [← List.head?_reverse, hr]
        rfl
      rw [List.dropWhile_cons_of_neg (by simp [h2 c this])]
  rw [e2, List.reverse_reverse]

/-- Folding a run of non-whitespace characters onto an accumulator whose
head word is exposed prepends the run to that word. -/
lemma foldr_split_word_acc (p : Char → Bool) (w : List Char)
    (hw : ∀ c ∈ w, p c = false) (wh : List Char) (rest : List (List Char)) :
    w.foldr (splitWsStep p) (wh :: rest) = (w ++ wh) :: rest := by
  induction w with
  | nil => rfl
  | cons c w' ih =>
    rw [List.foldr_cons, ih (fun c' hc' => hw c' (List.mem_cons_of_mem _ hc'))]
    simp [splitWsStep, hw c (List.mem_cons_self _ _)]

/-- Folding a non-empty run of non-whitespace characters onto the empty
accumulator produces that single word. -/
lemma foldr_split_word (p : Char → Bool) (w : List Char)
    (hw : ∀ c ∈ w, p c = false) (hne : w ≠ []) :
    w.foldr (splitWsStep p) [] = [w] := by
  induction w with
  | nil => exact absurd rfl hne
  | cons c w' ih =>
    cases w' with
    | nil => simp [splitWsStep, hw c (List.mem_cons_self _ _)]
    | cons c' w'' =>
      rw [List.foldr_cons,
        ih (fun u hu => hw u (List.mem_cons_of_mem _ hu)) (by simp)]
      simp [splitWsStep, hw c (List.mem_cons_self _ _)]

/-- Splitting a space-join of non-empty all-non-whitespace words recovers
the words. -/
lemma pySplitWs_joinSpace (p : Char → Bool) (hsp : p ' ' = true) :
    ∀ ws : List (List Char),
      (∀ w ∈ ws, w ≠ [] ∧ ∀ c ∈ w, p c = false) →
      pySplitWs p (joinSpace ws) = ws := by
  have key : ∀ ws : List (List Char), ws ≠ [] →
      (∀ w ∈ ws, w ≠ [] ∧ ∀ c ∈ w, p c = false) →
      (joinSpace ws).foldr (splitWsStep p) [] = ws := by
    intro ws
    induction ws with
    | nil => intro h; exact absurd rfl h
    | cons w ws ih =>
      intro _ hws
      cases ws with
      | nil =>
        simp only [joinSpace]
        exact foldr_split_word p w (hws w (List.mem_cons_self _ _)).2
          (hws w (List.mem_cons_self _ _)).1
      | cons w' ws' =>
        rw [joinSpace_cons w _ (by simp), List.foldr_append, List.foldr_cons,
          ih (by simp) (fun u hu => hws u (List.mem_cons_of_mem _ hu))]
        have hw' : w' ≠ [] := (hws w' (by simp)).1
        have : splitWsStep p ' ' (w' :: ws') = [] :: w' :: ws' := by
          simp [splitWsStep, hsp, hw']
        rw [this, foldr_split_word_acc p w (hws w (List.mem_cons_self _ _)).2]
        simp
  intro ws hws
  cases ws with
  | nil => rfl
  | cons w ws' =>
    unfold pySplitWs
    rw [key (w :: ws') (by simp) hws]
    simp [(hws w (List.mem_cons_self _ _)).1]

/-! ## Sanitization: idempotence (C8) -/

/-- Stripping only removes characters. -/
lemma mem_pyStrip (p : Char → Bool) (l : List Char) (c : Char)
    (h : c ∈ pyStrip p l) : c ∈ l := by
  unfold pyStrip at h
  rw [List.mem_reverse] at h
  have h2 := List.dropWhile_subset p h
  rw [List.mem_reverse] at h2
  exact List.dropWhile_subset p h2

/-- The character map of `sanitize_name`. -/
def sanitizeMap (db : UnicodeDB) (c : Char) : Char :=
  if db.isalnum c || safeChars.contains c then c else '_'

/-- `sanitize_name` written via `sanitizeMap`. -/
lemma sanitize_name_eq (db : UnicodeDB) (name : String) :
    sanitize_name db name =
      ⟨joinSpace (pySplitWs db.isspace
        (pyStrip db.isspace (name.data.map (sanitizeMap db))))⟩ := rfl

/-- The image of `sanitizeMap` is inside the kept class, hence fixed by a
second application. -/
lemma sanitizeMap_idem (db : UnicodeDB) (c : Char) :
    sanitizeMap db (sanitizeMap db c) = sanitizeMap db c := by
  unfold sanitizeMap
  by_cases h : (db.isalnum c || safeChars.contains c) = true
  · rw [if_pos h, if_pos h]
  · rw [if_neg h]
    have h2 : (db.isalnum '_' || safeChars.contains '_') = true := by
      have hs : safeChars.contains '_' = true := by decide
      rw [hs, Bool.or_true]
    rw [if_pos h2]

/-- C8: `sanitize` is idempotent (the only fact needed of the character
database is that `' '` counts as whitespace, which `str.isspace`
guarantees). -/
theorem sanitize_idem (db : UnicodeDB) (x : String)
    (hsp : db.isspace ' ' = true) :
    sanitize_name db (sanitize_name db x) = sanitize_name db x := by
  set p := db.isspace with hp
  set m := x.data.map (sanitizeMap db) with hm
  set ws := pySplitWs p (pyStrip p m) with hws
  have hwords : ∀ w ∈ ws, w ≠ [] ∧ ∀ c ∈ w, p c = false ∧ c ∈ pyStrip p m :=
    pySplitWs_words p _
  have hkept : ∀ c ∈ joinSpace ws, sanitizeMap db c = c := by
    intro c hc
    rcases mem_joinSpace ws c hc with ⟨w, hw, hcw⟩ | rfl
    · have hcm : c ∈ m := mem_pyStrip p m c ((hwords w hw).2 c hcw).2
      rw [hm] at hcm
      rcases List.mem_map.mp hcm with ⟨c0, _, rfl⟩
      exact sanitizeMap_idem db c0
    · unfold sanitizeMap
      have h2 : (db.isalnum ' ' || safeChars.contains ' ') = true := by
        have hs : safeChars.contains ' ' = true := by decide
        rw [hs, Bool.or_true]
      rw [if_pos h2]
  have hmap : (joinSpace ws).map (sanitizeMap db) = joinSpace ws := by
    rw [List.map_congr_left hkept]
    simp
  have hstrip : pyStrip p (joinSpace ws) = joinSpace ws := by
    refine pyStrip_eq_self p _ ?_ ?_
    · intro c hc
      cases hwsc : ws with
      | nil => rw [hwsc] at hc; simp [joinSpace] at hc
      | cons w ws' =>
        rw [hwsc, joinSpace_head? w ws'
          ((hwords w (by rw [hwsc]; exact List.mem_cons_self _ _)).1)] at hc
        have hcw : c ∈ w := List.mem_of_mem_head? (by rw [hc]; rfl)
        exact ((hwords w (by rw [hwsc]; exact List.mem_cons_self _ _)).2
          c hcw).1
    · intro c hc
      rcases joinSpace_getLast? ws (fun w hw => (hwords w hw).1) c hc with
        ⟨w, hw, hcw⟩
      have : c ∈ w := List.mem_of_getLast?_eq_some hcw
      exact ((hwords w hw).2 c this).1
  have hsplit : pySplitWs p (joinSpace ws) = ws :=
    pySplitWs_joinSpace p hsp ws
      (fun w hw => ⟨(hwords w hw).1, fun c hc => ((hwords w hw).2 c hc).1⟩)
  calc sanitize_name db (sanitize_name db x)
      = ⟨joinSpace (pySplitWs p (pyStrip p
          ((joinSpace ws).map (sanitizeMap db))))⟩ := by
        rw [sanitize_name_eq db (sanitize_name db x)]
        rfl
    _ = ⟨joinSpace ws⟩ := by rw [hmap, hstrip, hsplit]
    _ = sanitize_name db x := by rw [sanitize_name_eq db x]

/-- Witness for C8 at a concrete database and string. -/
theorem sanitize_idem_inst :
    sanitize_name dbA (sanitize_name dbA "  a:  b!c  ") =
      sanitize_name dbA "  a:  b!c  " :=
  sanitize_idem dbA "  a:  b!c  " rfl

/-! ## Sanitization: the spec's map-and-collapse formulation (C7) -/

mutual
/-- Spec-style whitespace collapsing, outside a word: drop leading
whitespace, then copy a word. -/
def specCollapse (p : Char → Bool) : List Char → List Char
  | [] => []
  | c :: rest =>
    if p c then specCollapse p rest else c :: specCollapseWord p rest

/-- Spec-style whitespace collapsing, inside a word: copy characters; at
whitespace, emit a single separating space only if another word follows. -/
def specCollapseWord (p : Char → Bool) : List Char → List Char
  | [] => []
  | c :: rest =>
    if p c then
      match specCollapse p rest with
      | [] => []
      | r => ' ' :: r
    else c :: specCollapseWord p rest
end

/-- Pulling the head character of the head word out of a space-join. -/
lemma joinSpace_cons_head (c : Char) (w : List Char)
    (ws : List (List Char)) :
    joinSpace ((c :: w) :: ws) = c :: joinSpace (w :: ws) := by
  cases ws <;> rfl

/-- The split-then-join pipeline equals the one-pass collapse, both
outside (`specCollapse`) and inside (`specCollapseWord`) a word. -/
lemma collapse_eq_join (p : Char → Bool) (m : List Char) :
    specCollapse p m = joinSpace (pySplitWs p m) ∧
    specCollapseWord p m = joinSpace (m.foldr (splitWsStep p) []) := by
  induction m with
  | nil => exact ⟨rfl, rfl⟩
  | cons c rest ih =>
    rcases ih with ⟨ihP, ihQ⟩
    have htail := (foldr_split_props p rest).2
    constructor
    · by_cases hc : p c
      · rw [show specCollapse p (c :: rest) = specCollapse p rest by
            simp [specCollapse, hc],
          ihP, pySplitWs_cons_of_ws p c rest hc]
      · rw [show specCollapse p (c :: rest) =
            c :: specCollapseWord p rest by simp [specCollapse, hc], ihQ]
        unfold pySplitWs
        rw [List.foldr_cons]
        cases hF : rest.foldr (splitWsStep p) [] with
        | nil => simp [splitWsStep, hc, joinSpace]
        | cons w ws =>
          rw [show splitWsStep p c (w :: ws) = (c :: w) :: ws by
              simp [splitWsStep, hc]]
          simp only [List.cons_ne_nil, if_false]
          rw [joinSpace_cons_head]
    · by_cases hc : p c
      · rw [show specCollapseWord p (c :: rest) =
            (match specCollapse p rest with
             | [] => []
             | r => ' ' :: r) by simp [specCollapseWord, hc]]
        rw [List.foldr_cons]
        cases hF : rest.foldr (splitWsStep p) [] with
        | nil =>
          have hsplit : pySplitWs p rest = [] := by
            unfold pySplitWs
            rw [hF]
          rw [ihP, hsplit]
          simp [splitWsStep, hc, joinSpace]
        | cons w ws =>
          rw [hF] at htail
          by_cases hw : w = []
          · subst hw
            have hsplit : pySplitWs p rest = ws := by
              unfold pySplitWs
              rw [hF]
              rfl
            rw [show splitWsStep p c ([] :: ws) = [] :: ws by
                simp [splitWsStep, hc], ihP, hsplit]
            cases hws : ws with
            | nil => simp [joinSpace]
            | cons w' ws' =>
              rw [joinSpace_cons [] (w' :: ws') (by simp)]
              simp only [List.nil_append]
              have hw' : w' ≠ [] := htail w' (by rw [hws]; simp)
              have hne := joinSpace_ne_nil w' ws' hw'
              cases hjj : joinSpace (w' :: ws') with
              | nil => exact absurd hjj hne
              | cons a t => rfl
          · have hsplit : pySplitWs p rest = w :: ws := by
              unfold pySplitWs
              rw [hF]
              simp [hw]
            rw [show splitWsStep p c (w :: ws) = [] :: w :: ws by
                simp [splitWsStep, hc, hw], ihP, hsplit]
            rw [joinSpace_cons [] (w :: ws) (by simp)]
            simp only [List.nil_append]
            have hne := joinSpace_ne_nil w ws hw
            cases hjj : joinSpace (w :: ws) with
            | nil => exact absurd hjj hne
            | cons a t => rfl
      · rw [show specCollapseWord p (c :: rest) =
            c :: specCollapseWord p rest by simp [specCollapseWord, hc], ihQ]
        rw [List.foldr_cons]
        cases hF : rest.foldr (splitWsStep p) [] with
        | nil => simp [splitWsStep, hc, joinSpace]
        | cons w ws =>
          rw [show splitWsStep p c (w :: ws) = (c :: w) :: ws by
              simp [splitWsStep, hc]]
          rw [joinSpace_cons_head]

/-- The spec's sanitizer exactly as C7 words it: keep the ASCII class
`[A-Za-z0-9-_.() ]`, replace every other character by `'_'`, then
collapse whitespace runs to single spaces and trim. -/
def specSanitize (x : String) : String :=
  ⟨specCollapse asciiSpaceB
    (x.data.map (fun c => if c.isAlphanum || safeChars.contains c then c
      else '_'))⟩

/-- C7 (amended): `sanitize_name` keeps exactly the characters that are
alphanumeric 'per the Unicode database' or in the literal set `-_.() `,
replaces every other character with `'_'`, then collapses consecutive
whitespace to single spaces and trims — i.e. it is the map-and-collapse
sanitizer over the database's character classes (not over the ASCII
class). -/
theorem sanitize_name_collapse (db : UnicodeDB) (x : String) :
    sanitize_name db x =
      ⟨specCollapse db.isspace (x.data.map (sanitizeMap db))⟩ := by
  rw [sanitize_name_eq]
  have h1 := pySplitWs_pyStrip db.isspace (x.data.map (sanitizeMap db))
  have h2 := (collapse_eq_join db.isspace (x.data.map (sanitizeMap db))).1
  rw [h1, ← h2]

/-- A database agreeing with Python's on ASCII and on `'é'` (a Unicode
alphanumeric). -/
def dbE : UnicodeDB :=
  ⟨fun c => if c.val < 128 then c.isAlphanum else c == 'é', asciiSpaceB,
   fun c => if c.isDigit then some (c.toNat - 48) else none⟩

/-- `dbE` satisfies every documented fact `ValidDB` records. -/
lemma validDB_dbE : ValidDB dbE := by
  refine ⟨fun c h => by simp [dbE, h], fun c _ => rfl, fun c h => ?_⟩
  simp only [dbE] at h
  by_cases hlt : c.val < 128
  · rw [if_pos hlt] at h
    by_cases hs : asciiSpaceB c = true
    · have := asciiSpaceB_not_alnum c hs
      rw [h] at this
      exact absurd this (by simp)
    · simpa [dbE] using hs
  · rw [if_neg hlt] at h
    have : c = 'é' := by simpa using h
    subst this
    decide

/-- C7 counterexample: on the character `'é'` — alphanumeric in the
Unicode database but outside the ASCII class `[A-Za-z0-9-_.() ]` — the
program keeps the character while the claimed sanitizer replaces it with
`'_'`. -/
theorem sanitize_keeps_unicode_alnum :
    ValidDB dbE ∧
    sanitize_name dbE "é" = "é" ∧
    specSanitize "é" = "_" ∧
    sanitize_name dbE "é" ≠ specSanitize "é" :=
  ⟨validDB_dbE, by decide, by decide, by decide⟩

/-! ## Database congruence and the fallback literals (C1) -/

/-- `dropWhile` only depends on the predicate's values on the list. -/
lemma dropWhile_congr (p q : Char → Bool) (l : List Char)
    (h : ∀ c ∈ l, p c = q c) : l.dropWhile p = l.dropWhile q := by
  induction l with
  | nil => rfl
  | cons c rest ih =>
    rw [List.dropWhile_cons, List.dropWhile_cons,
      h c (List.mem_cons_self _ _), ih (fun u hu => h u (List.mem_cons_of_mem _ hu))]

/-- `pyStrip` only depends on the predicate's values on the list. -/
lemma pyStrip_congr (p q : Char → Bool) (l : List Char)
    (h : ∀ c ∈ l, p c = q c) : pyStrip p l = pyStrip q l := by
  unfold pyStrip
  rw [dropWhile_congr p q l h]
  rw [dropWhile_congr p q (l.dropWhile q).reverse (fun c hc => by
    refine h c ?_
    rw [List.mem_reverse] at hc
    exact List.dropWhile_subset q hc)]

/-- `pySplitWs` only depends on the predicate's values on the list. -/
lemma pySplitWs_congr (p q : Char → Bool) (l : List Char)
    (h : ∀ c ∈ l, p c = q c) : pySplitWs p l = pySplitWs q l := by
  have hF : l.foldr (splitWsStep p) [] = l.foldr (splitWsStep q) [] := by
    induction l with
    | nil => rfl
    | cons c rest ih =>
      rw [List.foldr_cons, List.foldr_cons,
        ih (fun u hu => h u (List.mem_cons_of_mem _ hu))]
      unfold splitWsStep
      rw [h c (List.mem_cons_self _ _)]
  unfold pySplitWs
  rw [hF]

/-- `sanitizeMap` keeps character codes below 128. -/
lemma sanitizeMap_val_lt (db : UnicodeDB) (c : Char) (h : c.val < 128) :
    (sanitizeMap db c).val < 128 := by
  unfold sanitizeMap
  by_cases hk : (db.isalnum c || safeChars.contains c) = true
  · rw [if_pos hk]; exact h
  · rw [if_neg hk]; decide

/-- On an all-ASCII string any valid database sanitizes like the
pure-ASCII one. -/
lemma sanitize_congr_ascii (db : UnicodeDB) (h : ValidDB db) (s : String)
    (hs : ∀ c ∈ s.data, c.val < 128) :
    sanitize_name db s = sanitize_name dbA s := by
  rw [sanitize_name_eq, sanitize_name_eq]
  have hmap : s.data.map (sanitizeMap db) = s.data.map (sanitizeMap dbA) := by
    refine List.map_congr_left fun c hc => ?_
    unfold sanitizeMap
    rw [h.1 c (hs c hc)]
    rfl
  rw [hmap]
  have hlt : ∀ c ∈ s.data.map (sanitizeMap dbA), c.val < 128 := by
    intro c hc
    rcases List.mem_map.mp hc with ⟨c0, hc0, rfl⟩
    exact sanitizeMap_val_lt dbA c0 (hs c0 hc0)
  have hstrip : pyStrip db.isspace (s.data.map (sanitizeMap dbA)) =
      pyStrip asciiSpaceB (s.data.map (sanitizeMap dbA)) :=
    pyStrip_congr _ _ _ (fun c hc => h.2.1 c (hlt c hc))
  rw [hstrip]
  have hsplit : pySplitWs db.isspace
      (pyStrip asciiSpaceB (s.data.map (sanitizeMap dbA))) =
      pySplitWs asciiSpaceB
      (pyStrip asciiSpaceB (s.data.map (sanitizeMap dbA))) :=
    pySplitWs_congr _ _ _ (fun c hc =>
      h.2.1 c (hlt c (mem_pyStrip _ _ c hc)))
  rw [hsplit]
  rfl

/-- Any valid database leaves the literal `"Unknown Author"` unchanged. -/
lemma sanitize_unknown_author (db : UnicodeDB) (h : ValidDB db) :
    sanitize_name db "Unknown Author" = "Unknown Author" := by
  rw [sanitize_congr_ascii db h _ (by decide)]
  decide

/-- Any valid database leaves the literal `"Unknown Title"` unchanged. -/
lemma sanitize_unknown_title (db : UnicodeDB) (h : ValidDB db) :
    sanitize_name db "Unknown Title" = "Unknown Title" := by
  rw [sanitize_congr_ascii db h _ (by decide)]
  decide

/-- C1 (amended): an unparsable descriptor yields the all-default record
(never an error); when the present `creator`/`title` elements carry text,
`parse_metadata` succeeds, an absent `creator`/`title` element maps to
the fallback literal, and a present one maps to its sanitized text —
which can be empty (see the counterexample), so `author`/`title` are not
always non-empty; a present element with `None` text raises `TypeError`. -/
theorem parse_metadata_fallbacks (db : UnicodeDB) (h : ValidDB db)
    (doc : OpfDoc) :
    parse_metadata db (.error ()) =
      .ok ⟨"Unknown Author", "Unknown Title", none, none⟩ ∧
    (doc.creator ≠ some none → doc.title ≠ some none →
      ∃ m, parse_metadata db (.ok doc) = .ok m) ∧
    (doc.creator = some none →
      parse_metadata db (.ok doc) = .error .typeError) ∧
    (∀ m, parse_metadata db (.ok doc) = .ok m →
      (doc.creator = none → m.author = "Unknown Author") ∧
      (doc.title = none → m.book_title = "Unknown Title") ∧
      (∀ s, doc.creator = some (some s) → m.author = sanitize_name db s) ∧
      (∀ t, doc.title = some (some t) →
        m.book_title = sanitize_name db t)) := by
  obtain ⟨cr, ti, sm, sim⟩ := doc
  refine ⟨rfl, ?_, ?_, ?_⟩
  · intro hcr hti
    cases cr with
    | none =>
      cases ti with
      | none => exact ⟨_, rfl⟩
      | some t =>
        cases t with
        | none => exact absurd rfl hti
        | some t' => exact ⟨_, rfl⟩
    | some a =>
      cases a with
      | none => exact absurd rfl hcr
      | some a' =>
        cases ti with
        | none => exact ⟨_, rfl⟩
        | some t =>
          cases t with
          | none => exact absurd rfl hti
          | some t' => exact ⟨_, rfl⟩
  · intro hcr
    simp only [OpfDoc.mk.injEq] at hcr ⊢
    cases cr with
    | none => simp at hcr
    | some a =>
      cases a with
      | none => rfl
      | some a' => simp at hcr
  · intro m hm
    cases cr with
    | none =>
      cases ti with
      | none =>
        simp only [parse_metadata, Except.ok.injEq] at hm
        subst hm
        exact ⟨fun _ => sanitize_unknown_author db h,
          fun _ => sanitize_unknown_title db h,
          fun s hs => by simp at hs, fun t ht => by simp at ht⟩
      | some t =>
        cases t with
        | none => simp [parse_metadata] at hm
        | some t' =>
          simp only [parse_metadata, Except.ok.injEq] at hm
          subst hm
          refine ⟨fun _ => sanitize_unknown_author db h,
            fun hti => by simp at hti,
            fun s hs => by simp at hs, fun t0 ht0 => ?_⟩
          simp only [Option.some.injEq] at ht0
          subst ht0
          rfl
    | some a =>
      cases a with
      | none => simp [parse_metadata] at hm
      | some a' =>
        cases ti with
        | none =>
          simp only [parse_metadata, Except.ok.injEq] at hm
          subst hm
          refine ⟨fun hcr => by simp at hcr,
            fun _ => sanitize_unknown_title db h, fun s hs => ?_,
            fun t0 ht0 => by simp at ht0⟩
          simp only [Option.some.injEq] at hs
          subst hs
          rfl
        | some t =>
          cases t with
          | none => simp [parse_metadata] at hm
          | some t' =>
            simp only [parse_metadata, Except.ok.injEq] at hm
            subst hm
            refine ⟨fun hcr => by simp at hcr, fun hti => by simp at hti,
              fun s hs => ?_, fun t0 ht0 => ?_⟩
            · simp only [Option.some.injEq] at hs
              subst hs
              rfl
            · simp only [Option.some.injEq] at ht0
              subst ht0
              rfl

/-- Witness for C1's amended theorem: parse failure yields the
all-default record (hypothesis `ValidDB dbA` discharged). -/
theorem parse_metadata_fallbacks_inst :
    parse_metadata dbA (.error ()) =
      .ok ⟨"Unknown Author", "Unknown Title", none, none⟩ :=
  (parse_metadata_fallbacks dbA validDB_dbA ⟨none, none, none, none⟩).1

/-- C1 counterexample: a descriptor whose `dc:creator` text is a single
space parses successfully into a record with an empty author
(`sanitize_name` collapses the space away), refuting the invariant that
`author` is never empty. -/
theorem parse_metadata_empty_author :
    parse_metadata dbA
      (.ok ⟨some (some " "), some (some "T"), none, none⟩) =
      .ok ⟨"", "T", none, none⟩ ∧ ValidDB dbA :=
  ⟨by decide, validDB_dbA⟩

/-! ## Component-level view of slash-joined paths (towards C6 and C10) -/

/-- Two strings are equal exactly when their character lists are. -/
lemma String.eq_iff_data (s t : String) : s = t ↔ s.data = t.data :=
  ⟨congrArg _, String.ext⟩

/-- A well-formed walk name: what `os.walk` can yield as a file or
directory name (non-empty, no separator, not a dot entry). -/
def wfNameB (s : String) : Bool :=
  !(s == "") && !(s.data.contains '/') && !(s == ".") && !(s == "..")

/-- Unpack `wfNameB`. -/
lemma wfNameB_iff (s : String) :
    wfNameB s = true ↔ s ≠ "" ∧ '/' ∉ s.data ∧ s ≠ "." ∧ s ≠ ".." := by
  simp [wfNameB, List.contains_eq_any_beq, List.any_eq_true, not_or,
    and_assoc]

/-- A path component: non-empty and without separators (allows `.`/`..`,
which derived book-path components can contain). -/
def compOkB (s : String) : Bool := !(s == "") && !(s.data.contains '/')

/-- Unpack `compOkB`. -/
lemma compOkB_iff (s : String) :
    compOkB s = true ↔ s ≠ "" ∧ '/' ∉ s.data := by
  simp [compOkB, List.contains_eq_any_beq, List.any_eq_true]

/-- A well-formed name is a valid component. -/
lemma compOkB_of_wfNameB (s : String) (h : wfNameB s = true) :
    compOkB s = true := by
  rcases (wfNameB_iff s).mp h with ⟨h1, h2, _, _⟩
  exact (compOkB_iff s).mpr ⟨h1, h2⟩

/-- `joinSlash` on a cons with non-empty tail. -/
lemma joinSlash_cons (c : String) (cs : List String) (h : cs ≠ []) :
    joinSlash (c :: cs) = c ++ "/" ++ joinSlash cs := by
  cases cs with
  | nil => exact absurd rfl h
  | cons c' cs' => rfl

/-- The data of a slash-join of valid components is non-empty and starts
and ends with a non-separator character. -/
lemma joinSlash_facts (cs : List String) (hne : cs ≠ [])
    (h : ∀ c ∈ cs, compOkB c = true) :
    (joinSlash cs).data ≠ [] ∧
    (∀ a, (joinSlash cs).data.head? = some a → a ≠ '/') ∧
    (∀ a, (joinSlash cs).data.getLast? = some a → a ≠ '/') := by
  induction cs with
  | nil => exact absurd rfl hne
  | cons c cs' ih =>
    rcases (compOkB_iff c).mp (h c (List.mem_cons_self _ _)) with ⟨hc1, hc2⟩
    cases cs' with
    | nil =>
      simp only [joinSlash]
      refine ⟨fun hd => hc1 (String.ext hd), ?_, ?_⟩
      · intro a ha
        intro rfla
        subst rfla
        exact hc2 (List.mem_of_mem_head? ha)
      · intro a ha
        intro rfla
        subst rfla
        exact hc2 (List.mem_of_getLast?_eq_some ha)
    | cons c2 cs2 =>
      rcases ih (by simp) (fun u hu => h u (List.mem_cons_of_mem _ hu)) with
        ⟨ih1, ih2, ih3⟩
      rw [joinSlash_cons c _ (by simp)]
      have hdata : (c ++ "/" ++ joinSlash (c2 :: cs2)).data =
          c.data ++ '/' :: (joinSlash (c2 :: cs2)).data := by
        show (c.data ++ "/".data) ++ _ = _
        simp
      refine ⟨by simp [hdata], ?_, ?_⟩
      · intro a ha hra
        subst hra
        rw [hdata] at ha
        cases hcd : c.data with
        | nil => exact hc1 (String.ext hcd)
        | cons x xs =>
          rw [hcd] at ha
          simp only [List.cons_append, List.head?_cons,
            Option.some.injEq] at ha
          subst ha
          exact hc2 (by rw [hcd]; exact List.mem_cons_self _ _)
      · intro a ha
        rw [hdata, List.getLast?_append_cons] at ha
        cases hj : (joinSlash (c2 :: cs2)).data with
        | nil => exact absurd hj ih1
        | cons x xs =>
          rw [hj, List.getLast?_cons_cons] at ha
          exact ih3 a (by rw [hj]; rw [← List.getLast?_cons_cons (a := '/')]
                          rw [← hj]
                          rw [hj, List.getLast?_cons_cons]
                          exact ha)

/-- `splitOnChar` of a separator-free list. -/
lemma splitOnChar_no_sep (sep : Char) (w : List Char)
    (h : sep ∉ w) : splitOnChar sep w = [w] := by
  induction w with
  | nil => rfl
  | cons c rest ih =>
    have hc : ¬c = sep := fun hh => h (hh ▸ List.mem_cons_self _ _)
    rw [show splitOnChar sep (c :: rest) =
        (match splitOnChar sep rest with
         | [] => [[c]]
         | w :: ws => (c :: w) :: ws) by simp [splitOnChar, hc]]
    rw [ih (fun hm => h (List.mem_cons_of_mem _ hm))]

/-- `splitOnChar` across a separator after a separator-free chunk. -/
lemma splitOnChar_append_sep (sep : Char) (w r : List Char)
    (h : sep ∉ w) : splitOnChar sep (w ++ sep :: r) = w :: splitOnChar sep r := by
  induction w with
  | nil => simp [splitOnChar]
  | cons c rest ih =>
    have hc : ¬c = sep := fun hh => h (hh ▸ List.mem_cons_self _ _)
    rw [List.cons_append,
      show splitOnChar sep (c :: (rest ++ sep :: r)) =
        (match splitOnChar sep (rest ++ sep :: r) with
         | [] => [[c]]
         | w :: ws => (c :: w) :: ws) by simp [splitOnChar, hc]]
    rw [ih (fun hm => h (List.mem_cons_of_mem _ hm))]

/-- `splitOnChar '/'` recovers the components of a slash-join. -/
lemma splitOnChar_joinSlash (cs : List String) (hne : cs ≠ [])
    (h : ∀ c ∈ cs, compOkB c = true) :
    splitOnChar '/' (joinSlash cs).data = cs.map String.data := by
  induction cs with
  | nil => exact absurd rfl hne
  | cons c cs' ih =>
    rcases (compOkB_iff c).mp (h c (List.mem_cons_self _ _)) with ⟨_, hc2⟩
    cases cs' with
    | nil =>
      simp only [joinSlash, List.map]
      exact splitOnChar_no_sep '/' c.data hc2
    | cons c2 cs2 =>
      rw [joinSlash_cons c _ (by simp)]
      have hdata : (c ++ "/" ++ joinSlash (c2 :: cs2)).data =
          c.data ++ '/' :: (joinSlash (c2 :: cs2)).data := by
        show (c.data ++ "/".data) ++ _ = _
        simp
      rw [hdata, splitOnChar_append_sep '/' c.data _ hc2,
        ih (by simp) (fun u hu => h u (List.mem_cons_of_mem _ hu))]
      rfl

/-- `join2` is plain concatenation with a separator when the left side is
non-empty with no trailing slash and the right side has no leading
slash. -/
lemma join2_eq (a b : String) (ha : a ≠ "")
    (ha2 : ∀ x, a.data.getLast? = some x → x ≠ '/')
    (hb : ∀ x, b.data.head? = some x → x ≠ '/') :
    join2 a b = a ++ "/" ++ b := by
  unfold join2
  have h1 : ¬b.data.head? = some '/' := by
    intro hh
    exact hb '/' hh rfl
  rw [if_neg h1, if_neg]
  rintro (h2 | h2)
  · exact ha h2
  · exact ha2 '/' h2 rfl

/-- `join2` with an empty left side is the right side (when the right
side has no leading slash). -/
lemma join2_empty (b : String) : join2 "" b = b := by
  unfold join2
  by_cases h1 : b.data.head? = some '/'
  · rw [if_pos h1]
  · rw [if_neg h1, if_pos (Or.inl rfl)]
    rw [String.eq_iff_data]
    rfl

/-- Appending one component to a slash-join. -/
lemma joinSlash_append_singleton (cs : List String) (b : String)
    (hne : cs ≠ []) :
    joinSlash (cs ++ [b]) = joinSlash cs ++ "/" ++ b := by
  induction cs with
  | nil => exact absurd rfl hne
  | cons c cs' ih =>
    cases cs' with
    | nil => rfl
    | cons c2 cs2 =>
      rw [List.cons_append, joinSlash_cons c ((c2 :: cs2) ++ [b]) (by simp),
        ih (by simp), joinSlash_cons c (c2 :: cs2) (by simp)]
      rw [String.eq_iff_data]
      show (c.data ++ "/".data) ++ ((_ ++ "/".data) ++ b.data) =
        (((c.data ++ "/".data) ++ _) ++ "/".data) ++ b.data
      simp

/-- `join2` onto a slash-join of valid components appends a component. -/
lemma join2_joinSlash (cs : List String) (b : String) (hne : cs ≠ [])
    (h : ∀ c ∈ cs, compOkB c = true)
    (hb : ∀ x, b.data.head? = some x → x ≠ '/') :
    join2 (joinSlash cs) b = joinSlash (cs ++ [b]) := by
  rcases joinSlash_facts cs hne h with ⟨h1, _, h3⟩
  rw [join2_eq (joinSlash cs) b (fun hh => h1 (by rw [hh])) h3 hb]
  exact (joinSlash_append_singleton cs b hne).symm

/-- One step of the `normpath` component loop at the string level (the
absolute-path case, `slashes = 1`, of `normStep`). -/
def normStepS (acc : List String) (c : String) : List String :=
  if c = "" ∨ c = "." then acc
  else if c ≠ ".." ∨ (acc ≠ [] ∧ acc.getLast? = some "..") then acc ++ [c]
  else acc.dropLast

/-- The component normalization of an absolute path. -/
def normComps (cs : List String) : List String := cs.foldl normStepS []

/-- The char-level and string-level normalization steps agree. -/
lemma normStep_map (acc : List String) (c : String) :
    normStep 1 (acc.map String.data) c.data =
      (normStepS acc c).map String.data := by
  unfold normStep normStepS
  have hdd : c ≠ ".." ↔ c.data ≠ ['.', '.'] :=
    not_congr (String.eq_iff_data c "..")
  have e1 : (c.data = [] ∨ c.data = ['.']) ↔ (c = "" ∨ c = ".") :=
    or_congr (String.eq_iff_data c "").symm (String.eq_iff_data c ".").symm
  have e2 : (c.data ≠ ['.', '.'] ∨ ((1 : Nat) = 0 ∧ acc.map String.data = [])
      ∨ (acc.map String.data ≠ [] ∧
        (acc.map String.data).getLast? = some ['.', '.'])) ↔
      (c ≠ ".." ∨ (acc ≠ [] ∧ acc.getLast? = some "..")) := by
    rw [← hdd]
    constructor
    · rintro (h | ⟨h0, _⟩ | ⟨h1, h2⟩)
      · exact Or.inl h
      · exact absurd h0 (by decide)
      · refine Or.inr ⟨fun hacc => h1 (by rw [hacc]; rfl), ?_⟩
        rw [List.getLast?_map] at h2
        cases hl : acc.getLast? with
        | none => rw [hl] at h2; simp at h2
        | some x =>
          rw [hl] at h2
          simp only [Option.map_some', Option.some.injEq] at h2
          have hx : x = ".." := String.ext h2
          rw [hx]
    · rintro (h | ⟨h1, h2⟩)
      · exact Or.inl h
      · refine Or.inr (Or.inr ⟨by simpa using h1, ?_⟩)
        rw [List.getLast?_map, h2]
        rfl
  by_cases h1 : c = "" ∨ c = "."
  · rw [if_pos h1, if_pos (e1.mpr h1)]
  · rw [if_neg h1, if_neg (fun hh => h1 (e1.mp hh))]
    by_cases h2 : c ≠ ".." ∨ (acc ≠ [] ∧ acc.getLast? = some "..")
    · rw [if_pos h2, if_pos (e2.mpr h2)]
      simp
    · rw [if_neg h2, if_neg (fun hh => h2 (e2.mp hh))]
      simp

/-- The char-level fold and string-level fold agree. -/
lemma normStep_foldl_map (cs : List String) :
    ∀ acc : List String,
      (cs.map String.data).foldl (normStep 1) (acc.map String.data) =
        (cs.foldl normStepS acc).map String.data := by
  induction cs with
  | nil => intro acc; rfl
  | cons c cs' ih =>
    intro acc
    simp only [List.map_cons, List.foldl_cons]
    rw [normStep_map acc c, ih (normStepS acc c)]

/-- The data of a slash-join, via the char-level join. -/
lemma joinSlashL_data (ws : List String) :
    joinSlashL (ws.map String.data) = (joinSlash ws).data := by
  induction ws with
  | nil => rfl
  | cons w ws' ih =>
    cases ws' with
    | nil => rfl
    | cons w2 ws2 =>
      simp only [List.map_cons] at ih ⊢
      rw [show joinSlashL (w.data :: w2.data :: ws2.map String.data) =
          w.data ++ '/' :: joinSlashL (w2.data :: ws2.map String.data) from
          rfl, ih, joinSlash_cons w (w2 :: ws2) (by simp)]
      show _ = ((w.data ++ "/".data) ++ _)
      simp

/-- `normpath` on an absolute slash-join of valid components normalizes
the component list. -/
lemma normpath_abs (cs : List String) (h : ∀ c ∈ cs, compOkB c = true) :
    normpath ("/" ++ joinSlash cs) = "/" ++ joinSlash (normComps cs) := by
  have hdata : ("/" ++ joinSlash cs).data = '/' :: (joinSlash cs).data := by
    show "/".data ++ _ = _
    rfl
  have hsl : pyNormSlashes ('/' :: (joinSlash cs).data) = 1 := by
    unfold pyNormSlashes
    rw [if_pos (show ('/' :: (joinSlash cs).data).head? = some '/' from rfl),
      if_neg]
    rintro ⟨h2, _⟩
    cases hcs : cs with
    | nil =>
      rw [hcs] at h2
      simp [joinSlash] at h2
    | cons c cs' =>
      have hfacts := joinSlash_facts cs (by rw [hcs]; simp) h
      cases hj : (joinSlash cs).data with
      | nil => rw [hj] at h2; simp at h2
      | cons x xs =>
        rw [hj] at h2
        simp only [List.take_succ_cons, List.take_zero,
          List.cons.injEq] at h2
        exact hfacts.2.1 x (by rw [hj]; rfl) h2.2.1
  rw [String.eq_iff_data]
  show pyNormpathL (("/" ++ joinSlash cs).data) = _
  rw [hdata]
  unfold pyNormpathL
  rw [if_neg (by simp), hsl]
  have hsplit : splitOnChar '/' ('/' :: (joinSlash cs).data) =
      [] :: splitOnChar '/' (joinSlash cs).data := by
    simp [splitOnChar]
  rw [hsplit]
  have hfold : (([] : List Char) :: splitOnChar '/' (joinSlash cs).data).foldl
      (normStep 1) [] =
      (normComps cs).map String.data := by
    rw [List.foldl_cons]
    have hstep0 : normStep 1 [] [] = [] := rfl
    rw [hstep0]
    cases hcs : cs with
    | nil =>
      show (splitOnChar '/' ("" : String).data).foldl (normStep 1) [] = _
      rfl
    | cons c cs' =>
      rw [← hcs, splitOnChar_joinSlash cs (by rw [hcs]; simp) h]
      have := normStep_foldl_map cs ([])
      simpa using this
  rw [hfold]
  unfold normJoin
  rw [joinSlashL_data, if_neg (by simp)]
  show _ = "/".data ++ _
  rfl

/-- The component fold never leaves a `".."` in the accumulator (for the
absolute-path step). -/
lemma foldl_normStepS_no_dotdot (cs : List String) :
    ∀ acc : List String, (∀ c ∈ acc, c ≠ "..") →
      ∀ c ∈ cs.foldl normStepS acc, c ≠ ".." := by
  induction cs with
  | nil => intro acc hacc; exact hacc
  | cons c0 cs' ih =>
    intro acc hacc
    rw [List.foldl_cons]
    refine ih (normStepS acc c0) ?_
    unfold normStepS
    by_cases h1 : c0 = "" ∨ c0 = "."
    · rw [if_pos h1]; exact hacc
    · rw [if_neg h1]
      by_cases h2 : c0 ≠ ".." ∨ (acc ≠ [] ∧ acc.getLast? = some "..")
      · rw [if_pos h2]
        intro c hc
        rcases List.mem_append.mp hc with hc | hc
        · exact hacc c hc
        · rcases List.mem_singleton.mp hc with rfl
          rcases h2 with h2 | ⟨_, h2⟩
          · exact h2
          · exact absurd (hacc _ (List.mem_of_getLast?_eq_some h2) rfl) id
      · rw [if_neg h2]
        intro c hc
        exact hacc c (List.dropLast_subset _ hc)

/-- Elements of the normalized component list are valid components and
not dot entries. -/
lemma normComps_props (cs : List String) (h : ∀ c ∈ cs, compOkB c = true) :
    ∀ c ∈ normComps cs, compOkB c = true ∧ c ≠ "." ∧ c ≠ ".." := by
  have key : ∀ (cs' acc : List String), (∀ c ∈ cs', compOkB c = true) →
      (∀ c ∈ acc, compOkB c = true ∧ c ≠ "." ∧ c ≠ "..") →
      ∀ c ∈ cs'.foldl normStepS acc, compOkB c = true ∧ c ≠ "." ∧ c ≠ ".." := by
    intro cs'
    induction cs' with
    | nil => intro acc _ hacc; exact hacc
    | cons c0 rest ih =>
      intro acc hcs hacc
      rw [List.foldl_cons]
      refine ih _ (fun u hu => hcs u (List.mem_cons_of_mem _ hu)) ?_
      unfold normStepS
      by_cases h1 : c0 = "" ∨ c0 = "."
      · rw [if_pos h1]; exact hacc
      · rw [if_neg h1]
        by_cases h2 : c0 ≠ ".." ∨ (acc ≠ [] ∧ acc.getLast? = some "..")
        · rw [if_pos h2]
          intro c hc
          rcases List.mem_append.mp hc with hc | hc
          · exact hacc c hc
          · rcases List.mem_singleton.mp hc with rfl
            push_neg at h1
            refine ⟨hcs c (List.mem_cons_self _ _), h1.2, ?_⟩
            rcases h2 with h2 | ⟨_, h2⟩
            · exact h2
            · exact absurd (hacc _ (List.mem_of_getLast?_eq_some h2)).2.2 (by simp)
        · rw [if_neg h2]
          intro c hc
          exact hacc c (List.dropLast_subset _ hc)
  exact key cs [] h (by simp)

/-- Well-formed components pass through the normalization fold
untouched. -/
lemma foldl_normStepS_wf (r : List String) :
    ∀ acc : List String, (∀ c ∈ acc, c ≠ "..") →
      (∀ c ∈ r, wfNameB c = true) →
      r.foldl normStepS acc = acc ++ r := by
  induction r with
  | nil => intro acc _ _; simp
  | cons c0 rest ih =>
    intro acc hacc hr
    rcases (wfNameB_iff c0).mp (hr c0 (List.mem_cons_self _ _)) with
      ⟨h1, _, h3, h4⟩
    rw [List.foldl_cons]
    have hstep : normStepS acc c0 = acc ++ [c0] := by
      unfold normStepS
      rw [if_neg (by rintro (hh | hh); exact h1 hh; exact h3 hh),
        if_pos (Or.inl h4)]
    rw [hstep, ih (acc ++ [c0]) ?_ (fun u hu => hr u (List.mem_cons_of_mem _ hu))]
    · simp
    · intro c hc
      rcases List.mem_append.mp hc with hc | hc
      · exact hacc c hc
      · rcases List.mem_singleton.mp hc with rfl
        exact h4

/-- Appending well-formed names commutes with normalization. -/
lemma normComps_append_wf (v r : List String)
    (hr : ∀ c ∈ r, wfNameB c = true) :
    normComps (v ++ r) = normComps v ++ r := by
  unfold normComps
  rw [List.foldl_append]
  exact foldl_normStepS_wf r (normComps v)
    (foldl_normStepS_no_dotdot v [] (by simp)) hr

/-- `q` followed by something is `l`. -/
def Pref (q l : List String) : Prop := ∃ t, q ++ t = l

lemma pref_self (l : List String) : Pref l l := ⟨[], List.append_nil l⟩

lemma pref_trans {a b c : List String} (h1 : Pref a b) (h2 : Pref b c) :
    Pref a c := by
  rcases h1 with ⟨t1, ht1⟩
  rcases h2 with ⟨t2, ht2⟩
  exact ⟨t1 ++ t2, by rw [← List.append_assoc, ht1, ht2]⟩

lemma pref_dropLast (l : List String) : Pref l.dropLast l := by
  cases hl : l with
  | nil => exact pref_self []
  | cons x xs =>
    exact ⟨[(x :: xs).getLast (by simp)],
      List.dropLast_concat_getLast (by simp)⟩

lemma pref_concat_cases {q l : List String} {x : String}
    (h : Pref q (l ++ [x])) : q = l ++ [x] ∨ Pref q l := by
  rcases h with ⟨t, ht⟩
  induction t using List.reverseRecOn with
  | nil => exact Or.inl (by simpa using ht)
  | append_singleton t' y _ =>
    rw [← List.append_assoc] at ht
    rcases List.append_inj' ht rfl with ⟨h1, _⟩
    exact Or.inr ⟨t', h1⟩

/-- Every value the normalization stack passes through — in particular
every Pref of the final stack — is the normalization of some input
slice. -/
lemma normComps_visits (cs : List String) :
    ∀ q, Pref q (normComps cs) →
      ∃ i, i ≤ cs.length ∧ q = normComps (cs.take i) := by
  induction cs using List.reverseRecOn with
  | nil =>
    intro q hq
    rcases hq with ⟨t, ht⟩
    rcases List.append_eq_nil.mp ht with ⟨rfl, _⟩
    exact ⟨0, by simp, rfl⟩
  | append_singleton cs c ih =>
    intro q hq
    have hsplit : normComps (cs ++ [c]) = normStepS (normComps cs) c := by
      unfold normComps
      rw [List.foldl_append]
      rfl
    rw [hsplit] at hq
    unfold normStepS at hq
    by_cases h1 : c = "" ∨ c = "."
    · rw [if_pos h1] at hq
      rcases ih q hq with ⟨i, hi, hqi⟩
      exact ⟨i, by simpa using Nat.le_succ_of_le hi,
        by rw [hqi, List.take_append_eq_append_take,
          Nat.sub_eq_zero_of_le hi]; simp⟩
    · rw [if_neg h1] at hq
      by_cases h2 : c ≠ ".." ∨ (normComps cs ≠ [] ∧
          (normComps cs).getLast? = some "..")
      · rw [if_pos h2] at hq
        rcases pref_concat_cases hq with hq | hq
        · refine ⟨cs.length + 1, by simp, ?_⟩
          rw [hq, show (cs ++ [c]).take (cs.length + 1) = cs ++ [c] from
            List.take_of_length_le (by simp), hsplit]
          unfold normStepS
          rw [if_neg h1, if_pos h2]
        · rcases ih q hq with ⟨i, hi, hqi⟩
          exact ⟨i, by simpa using Nat.le_succ_of_le hi,
            by rw [hqi, List.take_append_eq_append_take,
              Nat.sub_eq_zero_of_le hi]; simp⟩
      · rw [if_neg h2] at hq
        have hq' : Pref q (normComps cs) :=
          pref_trans hq (pref_dropLast _)
        rcases ih q hq' with ⟨i, hi, hqi⟩
        exact ⟨i, by simpa using Nat.le_succ_of_le hi,
          by rw [hqi, List.take_append_eq_append_take,
            Nat.sub_eq_zero_of_le hi]; simp⟩

/-- The absolute path with the given components. -/
def mkAbs (cs : List String) : String := "/" ++ joinSlash cs

/-- `lastSlashSplit` of a separator-free list is `none`. -/
lemma lastSlashSplit_none (w : List Char) (h : '/' ∉ w) :
    lastSlashSplit w = none := by
  induction w with
  | nil => rfl
  | cons c rest ih =>
    have hc : ¬c = '/' := fun hh => h (hh ▸ List.mem_cons_self _ _)
    rw [show lastSlashSplit (c :: rest) =
        (match lastSlashSplit rest with
         | some (h, t) => some (c :: h, t)
         | none => if c = '/' then some (['/'], rest) else none) from rfl,
      ih (fun hm => h (List.mem_cons_of_mem _ hm))]
    simp [hc]

/-- `lastSlashSplit` finds the last separator. -/
lemma lastSlashSplit_append (hd w : List Char) (hw : '/' ∉ w) :
    lastSlashSplit (hd ++ '/' :: w) = some (hd ++ ['/'], w) := by
  induction hd with
  | nil =>
    rw [List.nil_append,
      show lastSlashSplit ('/' :: w) =
        (match lastSlashSplit w with
         | some (h, t) => some ('/' :: h, t)
         | none => if '/' = '/' then some (['/'], w) else none) from rfl,
      lastSlashSplit_none w hw]
    simp
  | cons c rest ih =>
    rw [List.cons_append,
      show lastSlashSplit (c :: (rest ++ '/' :: w)) =
        (match lastSlashSplit (rest ++ '/' :: w) with
         | some (h, t) => some (c :: h, t)
         | none => if c = '/' then some (['/'], rest ++ '/' :: w) else none)
        from rfl, ih]
    rfl

/-- Removing one trailing slash. -/
lemma dropTrailSlash_append (l : List Char)
    (h : ∀ x, l.getLast? = some x → x ≠ '/') :
    dropTrailSlash (l ++ ['/']) = l := by
  unfold dropTrailSlash
  rw [List.reverse_append]
  simp only [List.reverse_singleton, List.singleton_append]
  rw [List.dropWhile_cons_of_pos (by simp)]
  cases hr : l.reverse with
  | nil =>
    have : l = [] := by simpa using congrArg List.reverse hr
    simp [this]
  | cons x t =>
    have hx : l.getLast? = some x := by rw [← List.head?_reverse, hr]; rfl
    rw [List.dropWhile_cons_of_neg (by simp [h x hx]), ← hr,
      List.reverse_reverse]

/-- `dirname` of an absolute component path drops the last component. -/
lemma dirname_mkAbs (cs : List String) (hne : cs ≠ [])
    (h : ∀ c ∈ cs, compOkB c = true) :
    dirname (mkAbs cs) = mkAbs cs.dropLast := by
  induction cs using List.reverseRecOn with
  | nil => exact absurd rfl hne
  | append_singleton cs' c _ =>
    rcases (compOkB_iff c).mp (h c (by simp)) with ⟨hc1, hc2⟩
    cases hcs' : cs' with
    | nil =>
      subst hcs'
      rw [List.nil_append]
      unfold dirname
      have hdata : (mkAbs [c]).data = [] ++ '/' :: c.data := rfl
      rw [hdata, lastSlashSplit_append [] c.data hc2]
      simp only [List.nil_append]
      have hcond : ¬((['/'] : List Char) ≠ [] ∧
          ((['/'] : List Char).any fun x => decide (x ≠ '/')) = true) := by
        decide
      rw [if_neg hcond]
      rw [String.eq_iff_data]
      rfl
    | cons c0 cs0 =>
      rw [← hcs']
      have hcsne : cs' ≠ [] := by rw [hcs']; simp
      have hwf' : ∀ u ∈ cs', compOkB u = true := fun u hu =>
        h u (List.mem_append_left _ hu)
      rcases joinSlash_facts cs' hcsne hwf' with ⟨hj1, hj2, hj3⟩
      have hdata : (mkAbs (cs' ++ [c])).data =
          ('/' :: (joinSlash cs').data) ++ '/' :: c.data := by
        show "/".data ++ (joinSlash (cs' ++ [c])).data = _
        rw [joinSlash_append_singleton cs' c hcsne]
        show ['/'] ++ (((joinSlash cs').data ++ ['/']) ++ c.data) = _
        simp
      have hany : ((('/' :: (joinSlash cs').data) ++ ['/']).any
          fun x => decide (x ≠ '/')) = true := by
        cases hjd : (joinSlash cs').data with
        | nil => exact absurd hjd hj1
        | cons a t =>
          have ha : a ≠ '/' := hj2 a (by rw [hjd]; rfl)
          simp only [List.any_eq_true]
          exact ⟨a, by simp [hjd], by simpa using ha⟩
      have hcond : (('/' :: (joinSlash cs').data) ++ ['/']) ≠ [] ∧
          ((('/' :: (joinSlash cs').data) ++ ['/']).any
            fun x => decide (x ≠ '/')) = true := ⟨by simp, hany⟩
      have hdir : dirname (mkAbs (cs' ++ [c])) =
          (if (('/' :: (joinSlash cs').data) ++ ['/']) ≠ [] ∧
              ((('/' :: (joinSlash cs').data) ++ ['/']).any
                fun x => decide (x ≠ '/')) = true then
            (⟨dropTrailSlash (('/' :: (joinSlash cs').data) ++ ['/'])⟩ : String)
          else ⟨('/' :: (joinSlash cs').data) ++ ['/']⟩) := by
        unfold dirname
        rw [hdata, lastSlashSplit_append _ c.data hc2]
      rw [hdir, if_pos hcond]
      have hlast : ∀ x, ('/' :: (joinSlash cs').data).getLast? = some x →
          x ≠ '/' := by
        intro x hx
        cases hjd : (joinSlash cs').data with
        | nil => exact absurd hjd hj1
        | cons a t =>
          rw [hjd, List.getLast?_cons_cons] at hx
          exact hj3 x (by rw [hjd]; exact hx)
      rw [dropTrailSlash_append _ hlast]
      rw [String.eq_iff_data, List.dropLast_concat]
      show '/' :: (joinSlash cs').data = "/".data ++ (joinSlash cs').data
      rfl

/-- The iterated-`dirname` chain of proper ancestors, with enough fuel. -/
def ancChainN : Nat → String → List String
  | 0, _ => []
  | n + 1, pth =>
    if dirname pth = pth then [] else dirname pth :: ancChainN n (dirname pth)

/-- The proper ancestors of a path: its `dirname`, the `dirname` of that,
and so on, until the chain becomes stationary (at the root). -/
def properAncestors (pth : String) : List String :=
  ancChainN pth.data.length pth

/-- The expected ancestor list of an absolute component path. -/
def ancList (cs : List String) : List String :=
  ((List.range cs.length).reverse).map (fun i => mkAbs (cs.take i))

/-- `dirname "/" = "/"`. -/
lemma dirname_root : dirname "/" = "/" := by decide

/-- The root has no proper ancestors. -/
lemma ancChainN_root (fuel : Nat) : ancChainN fuel "/" = [] := by
  cases fuel with
  | zero => rfl
  | succ n =>
    unfold ancChainN
    rw [if_pos dirname_root]

/-- Each appended component strictly lengthens the path. -/
lemma mkAbs_data_len (cs : List String) (c : String) (hc : c ≠ "") :
    (mkAbs cs).data.length < (mkAbs (cs ++ [c])).data.length := by
  have hcd : 0 < c.data.length := by
    cases hd : c.data with
    | nil => exact absurd (String.ext hd) hc
    | cons x xs => simp
  cases hcs : cs with
  | nil =>
    show ("/".data ++ ("" : String).data).length <
      ("/".data ++ (joinSlash [c]).data).length
    simpa using hcd
  | cons c0 cs0 =>
    rw [← hcs]
    have hne : cs ≠ [] := by rw [hcs]; simp
    show ("/".data ++ (joinSlash cs).data).length <
      ("/".data ++ (joinSlash (cs ++ [c])).data).length
    rw [joinSlash_append_singleton cs c hne]
    show _ < ("/".data ++ (((joinSlash cs).data ++ "/".data) ++ c.data)).length
    simp

/-- The ancestor chain of an absolute component path is exactly the list
of its strict-prefix paths (longest first). -/
lemma ancChainN_mkAbs (cs : List String) (h : ∀ c ∈ cs, compOkB c = true) :
    ∀ fuel, cs.length ≤ fuel → ancChainN fuel (mkAbs cs) = ancList cs := by
  induction cs using List.reverseRecOn with
  | nil =>
    intro fuel _
    show ancChainN fuel "/" = _
    rw [ancChainN_root]
    rfl
  | append_singleton cs' c ih =>
    intro fuel hfuel
    have hlen : cs'.length + 1 ≤ fuel := by simpa using hfuel
    cases fuel with
    | zero => omega
    | succ f =>
      unfold ancChainN
      have hd : dirname (mkAbs (cs' ++ [c])) = mkAbs cs' := by
        rw [dirname_mkAbs (cs' ++ [c]) (by simp) h, List.dropLast_concat]
      have hne : mkAbs cs' ≠ mkAbs (cs' ++ [c]) := by
        intro he
        have := mkAbs_data_len cs' c
          ((compOkB_iff c).mp (h c (by simp))).1
        rw [he] at this
        omega
      rw [if_neg (by rw [hd]; exact hne), hd,
        ih (fun u hu => h u (List.mem_append_left _ hu)) f (by omega)]
      unfold ancList
      rw [show (cs' ++ [c]).length = cs'.length + 1 by simp,
        List.range_succ, List.reverse_append]
      simp only [List.reverse_singleton, List.singleton_append, List.map_cons]
      rw [List.take_left]
      congr 1
      refine List.map_congr_left fun i hi => ?_
      rw [List.mem_reverse, List.mem_range] at hi
      rw [List.take_append_eq_append_take, Nat.sub_eq_zero_of_le (by omega)]
      simp

/-- Membership in `ancList`. -/
lemma mem_ancList (cs : List String) (d : String) :
    d ∈ ancList cs ↔ ∃ i, i < cs.length ∧ d = mkAbs (cs.take i) := by
  unfold ancList
  simp only [List.mem_map, List.mem_reverse, List.mem_range]
  constructor
  · rintro ⟨i, hi, rfl⟩
    exact ⟨i, hi, rfl⟩
  · rintro ⟨i, hi, rfl⟩
    exact ⟨i, hi, rfl⟩

/-! ## Derived book paths are slash-joins of components -/

/-- A slash-free list has no slash at its head. -/
lemma noSlash_head (l : List Char) (h : '/' ∉ l) :
    ∀ x, l.head? = some x → x ≠ '/' := by
  intro x hx rfla
  subst rfla
  exact h (List.mem_of_mem_head? (by rw [hx]; rfl))

/-- A slash-free list has no slash at its end. -/
lemma noSlash_getLast (l : List Char) (h : '/' ∉ l) :
    ∀ x, l.getLast? = some x → x ≠ '/' := by
  intro x hx rfla
  subst rfla
  exact h (List.mem_of_getLast?_eq_some hx)

/-- The sanitizer never emits a separator. -/
lemma sanitize_no_slash (db : UnicodeDB) (hdb : ValidDB db) (s : String) :
    '/' ∉ (sanitize_name db s).data := by
  intro hmem
  rw [sanitize_name_eq] at hmem
  rcases mem_joinSpace _ '/' hmem with ⟨w, hw, hcw⟩ | habs
  · rcases pySplitWs_words db.isspace _ w hw with ⟨_, hchars⟩
    have h1 : '/' ∈ s.data.map (sanitizeMap db) :=
      mem_pyStrip _ _ _ (hchars '/' hcw).2
    rcases List.mem_map.mp h1 with ⟨c0, _, hc0⟩
    have halnum : db.isalnum '/' = false := by
      rw [hdb.1 '/' (by decide)]
      decide
    unfold sanitizeMap at hc0
    by_cases hk : (db.isalnum c0 || safeChars.contains c0) = true
    · rw [if_pos hk] at hc0
      subst hc0
      rw [halnum] at hk
      exact absurd (by simpa using hk : '/' ∈ safeChars) (by decide)
    · rw [if_neg hk] at hc0
      exact absurd hc0 (by decide)
  · exact absurd habs (by decide)

/-- Decimal digit characters are never separators. -/
lemma digitChar_ne_slash (n : Nat) : digitChar n ≠ '/' := by
  unfold digitChar
  split <;> decide

/-- The digit expansion contains only digit characters. -/
lemma natDigitsAux_no_slash (fuel : Nat) :
    ∀ n, '/' ∉ natDigitsAux fuel n := by
  induction fuel with
  | zero => intro n; simp [natDigitsAux]
  | succ f ih =>
    intro n
    unfold natDigitsAux
    by_cases h : n < 10
    · rw [if_pos h]
      intro hm
      rcases List.mem_singleton.mp hm with hm
      exact digitChar_ne_slash n hm.symm
    · rw [if_neg h]
      intro hm
      rcases List.mem_append.mp hm with hm | hm
      · exact ih (n / 10) hm
      · rcases List.mem_singleton.mp hm with hm
        exact digitChar_ne_slash (n % 10) hm.symm

/-- Python's decimal rendering of an integer contains no separator. -/
lemma intStr_no_slash (i : Int) : '/' ∉ (intStr i).data := by
  unfold intStr natDigits
  by_cases h : i < 0
  · rw [if_pos h]
    intro hm
    rcases List.mem_cons.mp hm with hm | hm
    · exact absurd hm (by decide)
    · exact natDigitsAux_no_slash _ _ hm
  · rw [if_neg h]
    exact natDigitsAux_no_slash _ _

/-- The series book directory name `Book {n}` is a valid component. -/
lemma bookDir_compOk (i : Int) : compOkB ("Book " ++ intStr i) = true := by
  refine (compOkB_iff _).mpr ⟨?_, ?_⟩
  · intro hh
    have := congrArg (fun s => s.data.length) hh
    simp only [String.eq_iff_data] at hh
    have : ("Book " ++ intStr i).data = "Book ".data ++ (intStr i).data := rfl
    rw [this] at hh
    simp at hh
  · intro hm
    have : ("Book " ++ intStr i).data = "Book ".data ++ (intStr i).data := rfl
    rw [this] at hm
    rcases List.mem_append.mp hm with hm | hm
    · exact absurd hm (by decide)
    · exact intStr_no_slash i hm

/-- `titleOrUnknown` of a slash-free title is a valid component. -/
lemma titleOrUnknown_compOk (t : String) (h : '/' ∉ t.data) :
    compOkB (titleOrUnknown t) = true := by
  unfold titleOrUnknown
  by_cases ht : t = ""
  · rw [if_pos ht]; decide
  · rw [if_neg ht]
    exact (compOkB_iff t).mpr ⟨ht, h⟩

/-- Joining one optional (possibly empty) component with a mandatory one
gives a slash-join. -/
lemma join2_comps (a b : String) (ha : '/' ∉ a.data)
    (hb : compOkB b = true) :
    ∃ vcs, vcs ≠ [] ∧ (∀ c ∈ vcs, compOkB c = true) ∧
      join2 a b = joinSlash vcs := by
  rcases (compOkB_iff b).mp hb with ⟨hb1, hb2⟩
  by_cases haa : a = ""
  · subst haa
    exact ⟨[b], by simp, by simpa using hb, by rw [join2_empty]; rfl⟩
  · refine ⟨[a, b], by simp, ?_, ?_⟩
    · intro c hc
      rcases List.mem_cons.mp hc with rfl | hc
      · exact (compOkB_iff c).mpr ⟨haa, ha⟩
      · rcases List.mem_singleton.mp hc with rfl
        exact hb
    · rw [join2_eq a b haa (noSlash_getLast a.data ha) (noSlash_head b.data hb2)]
      rw [joinSlash_cons a [b] (by simp)]
      rfl

/-- Joining author, series and book directory gives a slash-join. -/
lemma join3_comps (a s b : String) (ha : '/' ∉ a.data)
    (hs : compOkB s = true) (hb : compOkB b = true) :
    ∃ vcs, vcs ≠ [] ∧ (∀ c ∈ vcs, compOkB c = true) ∧
      join2 (join2 a s) b = joinSlash vcs := by
  rcases join2_comps a s ha hs with ⟨vcs1, hne1, hok1, heq1⟩
  rcases (compOkB_iff b).mp hb with ⟨_, hb2⟩
  refine ⟨vcs1 ++ [b], by simp, ?_, ?_⟩
  · intro c hc
    rcases List.mem_append.mp hc with hc | hc
    · exact hok1 c hc
    · rcases List.mem_singleton.mp hc with rfl
      exact hb
  · rw [heq1, join2_joinSlash vcs1 b hne1 hok1 (noSlash_head b.data hb2)]

/-- Every field of a successfully parsed record is a fallback literal or
a sanitizer output (the series possibly the empty string). -/
lemma parse_metadata_shapes (db : UnicodeDB) (d : Except Unit OpfDoc)
    (m : BookMetadata) (hm : parse_metadata db d = .ok m) :
    (m.author = "Unknown Author" ∨ ∃ a, m.author = sanitize_name db a) ∧
    (m.book_title = "Unknown Title" ∨ ∃ t, m.book_title = sanitize_name db t) ∧
    (m.series = none ∨ m.series = some "" ∨
      ∃ s, m.series = some (sanitize_name db s)) := by
  cases d with
  | error u =>
    simp only [parse_metadata, Except.ok.injEq] at hm
    subst hm
    exact ⟨Or.inl rfl, Or.inl rfl, Or.inl rfl⟩
  | ok doc =>
    obtain ⟨cr, ti, sm, sim⟩ := doc
    have hseries : ∀ (s0 : Option String),
        (match s0 with
          | some s => if s ≠ "" then some (sanitize_name db s) else some s
          | none => none) = none ∨
        (match s0 with
          | some s => if s ≠ "" then some (sanitize_name db s) else some s
          | none => none) = some "" ∨
        ∃ s, (match s0 with
          | some s => if s ≠ "" then some (sanitize_name db s) else some s
          | none => none) = some (sanitize_name db s) := by
      intro s0
      cases s0 with
      | none => exact Or.inl rfl
      | some s =>
        by_cases hs : s ≠ ""
        · refine Or.inr (Or.inr ⟨s, ?_⟩)
          show (if s ≠ "" then some (sanitize_name db s) else some s) =
            some (sanitize_name db s)
          rw [if_pos hs]
        · push_neg at hs
          subst hs
          refine Or.inr (Or.inl ?_)
          show (if ("" : String) ≠ "" then some (sanitize_name db "")
            else some "") = some ""
          rw [if_neg (by simp)]
    cases cr with
    | none =>
      cases ti with
      | none =>
        simp only [parse_metadata, Except.ok.injEq] at hm
        subst hm
        exact ⟨Or.inr ⟨_, rfl⟩, Or.inr ⟨_, rfl⟩, hseries _⟩
      | some t =>
        cases t with
        | none => simp [parse_metadata] at hm
        | some t' =>
          simp only [parse_metadata, Except.ok.injEq] at hm
          subst hm
          exact ⟨Or.inr ⟨_, rfl⟩, Or.inr ⟨_, rfl⟩, hseries _⟩
    | some a =>
      cases a with
      | none => simp [parse_metadata] at hm
      | some a' =>
        cases ti with
        | none =>
          simp only [parse_metadata, Except.ok.injEq] at hm
          subst hm
          exact ⟨Or.inr ⟨_, rfl⟩, Or.inr ⟨_, rfl⟩, hseries _⟩
        | some t =>
          cases t with
          | none => simp [parse_metadata] at hm
          | some t' =>
            simp only [parse_metadata, Except.ok.injEq] at hm
            subst hm
            exact ⟨Or.inr ⟨_, rfl⟩, Or.inr ⟨_, rfl⟩, hseries _⟩

/-- A parsed author (and title) is slash-free. -/
lemma parse_author_no_slash (db : UnicodeDB) (hdb : ValidDB db)
    (d : Except Unit OpfDoc) (m : BookMetadata)
    (hm : parse_metadata db d = .ok m) :
    '/' ∉ m.author.data ∧ '/' ∉ m.book_title.data := by
  rcases parse_metadata_shapes db d m hm with ⟨ha, ht, _⟩
  constructor
  · rcases ha with ha | ⟨a, ha⟩
    · rw [ha]; decide
    · rw [ha]; exact sanitize_no_slash db hdb a
  · rcases ht with ht | ⟨t, ht⟩
    · rw [ht]; decide
    · rw [ht]; exact sanitize_no_slash db hdb t

/-- The derived virtual book path of a parsed record is a slash-join of
non-empty slash-free components. -/
lemma gbp_comps (db : UnicodeDB) (hdb : ValidDB db)
    (d : Except Unit OpfDoc) (m : BookMetadata) (p : String)
    (hm : parse_metadata db d = .ok m) (hp : get_book_path db m = .ok p) :
    ∃ vcs, vcs ≠ [] ∧ (∀ c ∈ vcs, compOkB c = true) ∧ p = joinSlash vcs := by
  rcases parse_author_no_slash db hdb d m hm with ⟨hA, hT⟩
  rcases parse_metadata_shapes db d m hm with ⟨_, _, hS⟩
  have hTU : compOkB (titleOrUnknown m.book_title) = true :=
    titleOrUnknown_compOk m.book_title hT
  have hsingle : ∃ vcs, vcs ≠ [] ∧ (∀ c ∈ vcs, compOkB c = true) ∧
      join2 m.author (titleOrUnknown m.book_title) = joinSlash vcs :=
    join2_comps m.author (titleOrUnknown m.book_title) hA hTU
  have hSslash : ∀ s, m.series = some s → s ≠ "" → '/' ∉ s.data := by
    intro s hs hsne
    rcases hS with h0 | h0 | ⟨s0, h0⟩
    · rw [h0] at hs; cases hs
    · rw [h0] at hs
      rcases Option.some.inj hs with rfl
      exact absurd rfl hsne
    · rw [h0] at hs
      rcases Option.some.inj hs with rfl
      exact sanitize_no_slash db hdb s0
  unfold get_book_path at hp
  split at hp
  · rename_i s hseq
    split at hp
    · rcases hsingle with ⟨vcs, h1, h2, h3⟩
      rcases Except.ok.inj hp with rfl
      exact ⟨vcs, h1, h2, h3.symm ▸ rfl⟩
    · rename_i hsne
      have hsOk : compOkB s = true :=
        (compOkB_iff s).mpr ⟨hsne, hSslash s hseq hsne⟩
      split at hp
      · rename_i n _
        rcases join3_comps m.author s ("Book " ++ intStr n) hA hsOk
          (bookDir_compOk n) with ⟨vcs, h1, h2, h3⟩
        rcases Except.ok.inj hp with rfl
        exact ⟨vcs, h1, h2, h3.symm ▸ rfl⟩
      · rcases join3_comps m.author s (titleOrUnknown m.book_title) hA hsOk
          hTU with ⟨vcs, h1, h2, h3⟩
        rcases Except.ok.inj hp with rfl
        exact ⟨vcs, h1, h2, h3.symm ▸ rfl⟩
      · rcases join3_comps m.author s (titleOrUnknown m.book_title) hA hsOk
          hTU with ⟨vcs, h1, h2, h3⟩
        rcases Except.ok.inj hp with rfl
        exact ⟨vcs, h1, h2, h3.symm ▸ rfl⟩
      · rename_i e _ _
        cases hp
  · rcases hsingle with ⟨vcs, h1, h2, h3⟩
    rcases Except.ok.inj hp with rfl
    exact ⟨vcs, h1, h2, h3.symm ▸ rfl⟩

/-! ## Trees: well-formedness and component paths -/

/-- Duplicate-freedom test. -/
def nodupB : List String → Bool
  | [] => true
  | x :: rest => !(rest.contains x) && nodupB rest

mutual
/-- Well-formed real directory tree: all file and subdirectory names are
well-formed walk names, names are duplicate-free per directory, and
subtrees are well-formed. -/
def wfT : DirTree → Bool
  | .node fs sub =>
    fs.all wfNameB && nodupB fs && nodupB (DirForest.names sub) && wfF sub

/-- Well-formedness of a forest of subdirectories. -/
def wfF : DirForest → Bool
  | .nil => true
  | .cons n t rest => wfNameB n && wfT t && wfF rest
end

mutual
/-- Component paths (relative to the tree root) of all files of a tree. -/
def relFilesT : DirTree → List (List String)
  | .node fs sub => fs.map (fun f => [f]) ++ relFilesF sub

/-- Component paths of files in a forest, prefixed by their subdirectory
name. -/
def relFilesF : DirForest → List (List String)
  | .nil => []
  | .cons n t rest => (relFilesT t).map (fun p => n :: p) ++ relFilesF rest
end

mutual
/-- Component paths (relative to the tree root) of all directories of a
tree. -/
def relDirsT : DirTree → List (List String)
  | .node _ sub => (DirForest.names sub).map (fun n => [n]) ++ relDirsF sub

/-- Component paths of directories in a forest. -/
def relDirsF : DirForest → List (List String)
  | .nil => []
  | .cons n t rest => (relDirsT t).map (fun p => n :: p) ++ relDirsF rest
end

mutual
/-- File paths of a well-formed tree are non-empty lists of well-formed
names. -/
theorem relFilesT_wf (t : DirTree) : wfT t = true →
    ∀ p ∈ relFilesT t, p ≠ [] ∧ ∀ c ∈ p, wfNameB c = true
  | hwf, p, hp => by
    cases t with
    | node fs sub =>
      unfold wfT at hwf
      simp only [Bool.and_eq_true, List.all_eq_true] at hwf
      unfold relFilesT at hp
      rcases List.mem_append.mp hp with hp | hp
      · rcases List.mem_map.mp hp with ⟨f, hf, rfl⟩
        refine ⟨by simp, ?_⟩
        intro c hc
        rcases List.mem_singleton.mp hc with rfl
        exact hwf.1.1.1 c hf
      · exact relFilesF_wf sub hwf.2 p hp

/-- File paths of a well-formed forest. -/
theorem relFilesF_wf (f : DirForest) : wfF f = true →
    ∀ p ∈ relFilesF f, p ≠ [] ∧ ∀ c ∈ p, wfNameB c = true
  | hwf, p, hp => by
    cases f with
    | nil => exact absurd hp (by simp [relFilesF])
    | cons n t rest =>
      unfold wfF at hwf
      simp only [Bool.and_eq_true] at hwf
      unfold relFilesF at hp
      rcases List.mem_append.mp hp with hp | hp
      · rcases List.mem_map.mp hp with ⟨p', hp', rfl⟩
        rcases relFilesT_wf t hwf.1.2 p' hp' with ⟨_, hall⟩
        refine ⟨by simp, ?_⟩
        intro c hc
        rcases List.mem_cons.mp hc with rfl | hc
        · exact hwf.1.1
        · exact hall c hc
      · exact relFilesF_wf rest hwf.2 p hp
end

mutual
/-- Directory paths of a well-formed tree are non-empty lists of
well-formed names. -/
theorem relDirsT_wf (t : DirTree) : wfT t = true →
    ∀ p ∈ relDirsT t, p ≠ [] ∧ ∀ c ∈ p, wfNameB c = true
  | hwf, p, hp => by
    cases t with
    | node fs sub =>
      unfold wfT at hwf
      simp only [Bool.and_eq_true, List.all_eq_true] at hwf
      unfold relDirsT at hp
      rcases List.mem_append.mp hp with hp | hp
      · rcases List.mem_map.mp hp with ⟨n, hn, rfl⟩
        refine ⟨by simp, ?_⟩
        intro c hc
        rcases List.mem_singleton.mp hc with rfl
        exact forest_names_wf sub hwf.2 c hn
      · exact relDirsF_wf sub hwf.2 p hp

/-- Directory paths of a well-formed forest. -/
theorem relDirsF_wf (f : DirForest) : wfF f = true →
    ∀ p ∈ relDirsF f, p ≠ [] ∧ ∀ c ∈ p, wfNameB c = true
  | hwf, p, hp => by
    cases f with
    | nil => exact absurd hp (by simp [relDirsF])
    | cons n t rest =>
      unfold wfF at hwf
      simp only [Bool.and_eq_true] at hwf
      unfold relDirsF at hp
      rcases List.mem_append.mp hp with hp | hp
      · rcases List.mem_map.mp hp with ⟨p', hp', rfl⟩
        rcases relDirsT_wf t hwf.1.2 p' hp' with ⟨_, hall⟩
        refine ⟨by simp, ?_⟩
        intro c hc
        rcases List.mem_cons.mp hc with rfl | hc
        · exact hwf.1.1
        · exact hall c hc
      · exact relDirsF_wf rest hwf.2 p hp

/-- Names of a well-formed forest are well-formed. -/
theorem forest_names_wf (f : DirForest) : wfF f = true →
    ∀ n ∈ DirForest.names f, wfNameB n = true
  | hwf, n, hn => by
    cases f with
    | nil => exact absurd hn (by simp [DirForest.names])
    | cons n0 t rest =>
      unfold wfF at hwf
      simp only [Bool.and_eq_true] at hwf
      unfold DirForest.names at hn
      rcases List.mem_cons.mp hn with rfl | hn
      · exact hwf.1.1
      · exact forest_names_wf rest hwf.2 n hn
end

mutual
/-- Every strict non-empty prefix of a file path of a tree is a directory
path of the tree. -/
theorem relFilesT_take (t : DirTree) :
    ∀ p ∈ relFilesT t, ∀ j, 0 < j → j < p.length →
      p.take j ∈ relDirsT t
  | p, hp, j, hj0, hjlen => by
    cases t with
    | node fs sub =>
      unfold relFilesT at hp
      unfold relDirsT
      rcases List.mem_append.mp hp with hp | hp
      · rcases List.mem_map.mp hp with ⟨f, _, rfl⟩
        simp at hjlen
        omega
      · exact relFilesF_take sub p hp j hj0 hjlen

/-- Forest version of `relFilesT_take`: prefixes land in the
subdirectory-name singletons or deeper. -/
theorem relFilesF_take (f : DirForest) :
    ∀ p ∈ relFilesF f, ∀ j, 0 < j → j < p.length →
      p.take j ∈ (DirForest.names f).map (fun n => [n]) ++ relDirsF f
  | p, hp, j, hj0, hjlen => by
    cases f with
    | nil => exact absurd hp (by simp [relFilesF])
    | cons n t rest =>
      unfold relFilesF at hp
      rcases List.mem_append.mp hp with hp | hp
      · rcases List.mem_map.mp hp with ⟨p', hp', rfl⟩
        cases j with
        | zero => omega
        | succ j' =>
          rw [List.take_succ_cons]
          by_cases hj' : j' = 0
          · subst hj'
            refine List.mem_append_left _ ?_
            simp only [List.take_zero, DirForest.names, List.map_cons]
            exact List.mem_cons_self _ _
          · refine List.mem_append_right _ ?_
            unfold relDirsF
            refine List.mem_append_left _ ?_
            refine List.mem_map.mpr ⟨p'.take j', ?_, rfl⟩
            exact relFilesT_take t p' hp' j' (by omega)
              (by simpa using Nat.lt_of_succ_lt_succ hjlen)
      · have := relFilesF_take rest p hp j hj0 hjlen
        rcases List.mem_append.mp this with hh | hh
        · refine List.mem_append_left _ ?_
          rcases List.mem_map.mp hh with ⟨n', hn', heq⟩
          exact List.mem_map.mpr ⟨n', by simp [DirForest.names, hn'], heq⟩
        · refine List.mem_append_right _ ?_
          unfold relDirsF
          exact List.mem_append_right _ hh
end

/-! ## Registration lemmas: `dict`/`set` updates and triple folds -/

/-- Membership after `set.add`. -/
lemma mem_addSet (s : List String) (d x : String) :
    x ∈ addSet s d ↔ x ∈ s ∨ x = d := by
  unfold addSet
  by_cases hd : d ∈ s
  · rw [if_pos hd]
    constructor
    · exact Or.inl
    · rintro (h | rfl)
      · exact h
      · exact hd
  · rw [if_neg hd]
    simp

/-- A successful lookup is a member. -/
lemma lookupKey_mem (m : List (String × String)) (k v : String)
    (h : lookupKey m k = some v) : (k, v) ∈ m := by
  induction m with
  | nil => cases h
  | cons p rest ih =>
    obtain ⟨a, b⟩ := p
    have h' : (if a = k then some b else lookupKey rest k) = some v := h
    by_cases hak : a = k
    · rw [if_pos hak] at h'
      obtain rfl := Option.some.inj h'
      subst hak
      exact List.mem_cons_self _ _
    · rw [if_neg hak] at h'
      exact List.mem_cons_of_mem _ (ih h')

/-- `dict` assignment stores its key. -/
lemma mem_setKey_self (m : List (String × String)) (k v : String) :
    ∃ v', (k, v') ∈ setKey m k v := by
  unfold setKey
  by_cases hs : (lookupKey m k).isSome
  · rw [if_pos hs]
    rcases Option.isSome_iff_exists.mp hs with ⟨w, hw⟩
    refine ⟨v, List.mem_map.mpr ⟨(k, w), lookupKey_mem m k w hw, ?_⟩⟩
    rw [if_pos (show (k, w).1 = k from rfl)]
  · rw [if_neg hs]
    exact ⟨v, List.mem_append_right _ (List.mem_singleton.mpr rfl)⟩

/-- `dict` assignment keeps every present key present. -/
lemma mem_setKey_preserve (m : List (String × String)) (k0 v0 k : String)
    (h : ∃ v, (k, v) ∈ m) : ∃ v', (k, v') ∈ setKey m k0 v0 := by
  rcases h with ⟨v, hv⟩
  unfold setKey
  by_cases hs : (lookupKey m k0).isSome
  · rw [if_pos hs]
    by_cases hk : k = k0
    · subst hk
      refine ⟨v0, List.mem_map.mpr ⟨(k, v), hv, ?_⟩⟩
      rw [if_pos (show (k, v).1 = k from rfl)]
    · refine ⟨v, List.mem_map.mpr ⟨(k, v), hv, ?_⟩⟩
      rw [if_neg (show ¬(k, v).1 = k0 from hk)]
  · rw [if_neg hs]
    exact ⟨v, List.mem_append_left _ hv⟩

/-- Every key present after a `dict` assignment was present before or is
the assigned key. -/
lemma mem_setKey_carrier (m : List (String × String)) (k0 v0 k v : String)
    (h : (k, v) ∈ setKey m k0 v0) : (∃ v', (k, v') ∈ m) ∨ k = k0 := by
  unfold setKey at h
  by_cases hs : (lookupKey m k0).isSome
  · rw [if_pos hs] at h
    rcases List.mem_map.mp h with ⟨p, hp, hpe⟩
    by_cases hpk : p.1 = k0
    · rw [if_pos hpk] at hpe
      exact Or.inr (congrArg Prod.fst hpe).symm
    · rw [if_neg hpk] at hpe
      exact Or.inl ⟨v, hpe ▸ hp⟩
  · rw [if_neg hs] at h
    rcases List.mem_append.mp h with h | h
    · exact Or.inl ⟨v, h⟩
    · have h' := List.mem_singleton.mp h
      exact Or.inr (congrArg Prod.fst h')

/-- Folding `set.add` updates never removes members. -/
lemma foldl_addSet_mono {α : Type} (K : α → String) (dl : List α) :
    ∀ (s : List String) (x : String), x ∈ s →
      x ∈ dl.foldl (fun s y => addSet s (K y)) s := by
  induction dl with
  | nil => intro s x hx; exact hx
  | cons y dl ih =>
    intro s x hx
    rw [List.foldl_cons]
    exact ih _ x ((mem_addSet s (K y) x).mpr (Or.inl hx))

/-- Folding `set.add` updates inserts every listed element. -/
lemma foldl_addSet_mem {α : Type} (K : α → String) (dl : List α) :
    ∀ d : α, d ∈ dl → ∀ s : List String,
      K d ∈ dl.foldl (fun s y => addSet s (K y)) s := by
  induction dl with
  | nil => intro d hd; exact absurd hd (List.not_mem_nil d)
  | cons y dl ih =>
    intro d hd s
    rw [List.foldl_cons]
    rcases List.mem_cons.mp hd with rfl | hd'
    · exact foldl_addSet_mono K dl _ _ ((mem_addSet s (K d) (K d)).mpr
        (Or.inr rfl))
    · exact ih d hd' _

/-- Folding `dict` assignments keeps keys present. -/
lemma foldl_setKey_preserve {α : Type} (K V : α → String) (fl : List α) :
    ∀ (m : List (String × String)) (k : String), (∃ v, (k, v) ∈ m) →
      ∃ v, (k, v) ∈ fl.foldl (fun m x => setKey m (K x) (V x)) m := by
  induction fl with
  | nil => intro m k h; exact h
  | cons x fl ih =>
    intro m k h
    rw [List.foldl_cons]
    exact ih _ k (mem_setKey_preserve m (K x) (V x) k h)

/-- Folding `dict` assignments stores every listed key. -/
lemma foldl_setKey_mem {α : Type} (K V : α → String) (fl : List α) :
    ∀ f : α, f ∈ fl → ∀ m : List (String × String),
      ∃ v, (K f, v) ∈ fl.foldl (fun m x => setKey m (K x) (V x)) m := by
  induction fl with
  | nil => intro f hf; exact absurd hf (List.not_mem_nil f)
  | cons x fl ih =>
    intro f hf m
    rw [List.foldl_cons]
    rcases List.mem_cons.mp hf with rfl | hf'
    · exact foldl_setKey_preserve K V fl _ _ (mem_setKey_self m (K f) (V f))
    · exact ih f hf' _

/-- Every key present after a fold of `dict` assignments was present
before or is one of the assigned keys. -/
lemma foldl_setKey_carrier {α : Type} (K V : α → String) (fl : List α) :
    ∀ (m : List (String × String)) (k v : String),
      (k, v) ∈ fl.foldl (fun m x => setKey m (K x) (V x)) m →
      (∃ v', (k, v') ∈ m) ∨ ∃ f ∈ fl, k = K f := by
  induction fl with
  | nil =>
    intro m k v h
    exact Or.inl ⟨v, h⟩
  | cons x fl ih =>
    intro m k v h
    rw [List.foldl_cons] at h
    rcases ih _ k v h with h' | ⟨f, hf, hkf⟩
    · rcases h' with ⟨v', hv'⟩
      rcases mem_setKey_carrier m (K x) (V x) k v' hv' with h'' | hkx
      · exact Or.inl h''
      · exact Or.inr ⟨x, List.mem_cons_self _ _, hkx⟩
    · exact Or.inr ⟨f, List.mem_cons_of_mem _ hf, hkf⟩

/-- `registerTriple` decomposed into a pure fold on `files` and a pure
fold on `directories`. -/
lemma registerTriple_eq (vbp root rel : String) (dn fn : List String)
    (st : FSIndex) :
    registerTriple vbp st ⟨root, rel, dn, fn⟩ =
      ⟨fn.foldl (fun m f => setKey m
          (normpath (join2 (join2 "/" vbp)
            (if rel ≠ "." then join2 rel f else f)))
          (join2 root f)) st.files,
       dn.foldl (fun s d => addSet s
          (normpath (join2 (join2 "/" vbp)
            (if rel ≠ "." then join2 rel d else d)))) st.directories⟩ := by
  have hfiles : ∀ (fl : List String) (acc : FSIndex),
      fl.foldl
        (fun acc f => (⟨setKey acc.files
          (normpath (join2 (join2 "/" vbp)
            (if rel ≠ "." then join2 rel f else f)))
          (join2 root f), acc.directories⟩ : FSIndex)) acc =
      ⟨fl.foldl (fun m f => setKey m
          (normpath (join2 (join2 "/" vbp)
            (if rel ≠ "." then join2 rel f else f)))
          (join2 root f)) acc.files, acc.directories⟩ := by
    intro fl
    induction fl with
    | nil => intro acc; rfl
    | cons f fl ih =>
      intro acc
      rw [List.foldl_cons, List.foldl_cons, ih]
  have hdirs : ∀ (dl : List String) (acc : FSIndex),
      dl.foldl
        (fun acc d => (⟨acc.files, addSet acc.directories
          (normpath (join2 (join2 "/" vbp)
            (if rel ≠ "." then join2 rel d else d)))⟩ : FSIndex)) acc =
      ⟨acc.files, dl.foldl (fun s d => addSet s
          (normpath (join2 (join2 "/" vbp)
            (if rel ≠ "." then join2 rel d else d)))) acc.directories⟩ := by
    intro dl
    induction dl with
    | nil => intro acc; rfl
    | cons d dl ih =>
      intro acc
      rw [List.foldl_cons, List.foldl_cons, ih]
  show (dn.foldl
      (fun acc d => (⟨acc.files, addSet acc.directories
        (normpath (join2 (join2 "/" vbp)
          (if rel ≠ "." then join2 rel d else d)))⟩ : FSIndex))
      (fn.foldl
        (fun acc f => (⟨setKey acc.files
          (normpath (join2 (join2 "/" vbp)
            (if rel ≠ "." then join2 rel f else f)))
          (join2 root f), acc.directories⟩ : FSIndex)) st)) = _
  rw [hfiles, hdirs]

/-- `registerTriple` never removes a directory. -/
lemma registerTriple_dirs_mono (vbp : String) (st : FSIndex) (t : WTriple)
    (d : String) (hd : d ∈ st.directories) :
    d ∈ (registerTriple vbp st t).directories := by
  obtain ⟨root, rel, dn, fn⟩ := t
  rw [registerTriple_eq]
  exact foldl_addSet_mono (fun x => normpath (join2 (join2 "/" vbp)
    (if rel ≠ "." then join2 rel x else x))) dn st.directories d hd

/-- `registerTriple` registers each subdirectory name of its triple. -/
lemma registerTriple_dir_mem (vbp root rel : String) (dn fn : List String)
    (st : FSIndex) (d : String) (hd : d ∈ dn) :
    normpath (join2 (join2 "/" vbp) (if rel ≠ "." then join2 rel d else d)) ∈
      (registerTriple vbp st ⟨root, rel, dn, fn⟩).directories := by
  rw [registerTriple_eq]
  exact foldl_addSet_mem (fun x => normpath (join2 (join2 "/" vbp)
    (if rel ≠ "." then join2 rel x else x))) dn d hd st.directories

/-- `registerTriple` keeps every present file key present. -/
lemma registerTriple_files_preserve (vbp : String) (st : FSIndex)
    (t : WTriple) (k : String) (h : ∃ v, (k, v) ∈ st.files) :
    ∃ v, (k, v) ∈ (registerTriple vbp st t).files := by
  obtain ⟨root, rel, dn, fn⟩ := t
  rw [registerTriple_eq]
  exact foldl_setKey_preserve (fun x => normpath (join2 (join2 "/" vbp)
      (if rel ≠ "." then join2 rel x else x)))
    (fun x => join2 root x) fn st.files k h

/-- `registerTriple` maps each file name of its triple. -/
lemma registerTriple_file_mem (vbp root rel : String) (dn fn : List String)
    (st : FSIndex) (f : String) (hf : f ∈ fn) :
    ∃ v, (normpath (join2 (join2 "/" vbp)
        (if rel ≠ "." then join2 rel f else f)), v) ∈
      (registerTriple vbp st ⟨root, rel, dn, fn⟩).files := by
  rw [registerTriple_eq]
  exact foldl_setKey_mem (fun x => normpath (join2 (join2 "/" vbp)
      (if rel ≠ "." then join2 rel x else x)))
    (fun x => join2 root x) fn f hf st.files

/-- Every file key present after `registerTriple` was present before or
is the virtual path of one of the triple's files. -/
lemma registerTriple_files_carrier (vbp root rel : String)
    (dn fn : List String) (st : FSIndex) (k v : String)
    (h : (k, v) ∈ (registerTriple vbp st ⟨root, rel, dn, fn⟩).files) :
    (∃ v', (k, v') ∈ st.files) ∨
    ∃ f ∈ fn, k = normpath (join2 (join2 "/" vbp)
      (if rel ≠ "." then join2 rel f else f)) := by
  rw [registerTriple_eq] at h
  exact foldl_setKey_carrier (fun x => normpath (join2 (join2 "/" vbp)
      (if rel ≠ "." then join2 rel x else x)))
    (fun x => join2 root x) fn st.files k v h

/-- Folding `registerTriple` over a triple list never removes a
directory. -/
lemma foldl_rT_dirs_mono (vbp : String) (ts : List WTriple) :
    ∀ (st : FSIndex) (d : String), d ∈ st.directories →
      d ∈ (ts.foldl (registerTriple vbp) st).directories := by
  induction ts with
  | nil => intro st d hd; exact hd
  | cons t ts ih =>
    intro st d hd
    rw [List.foldl_cons]
    exact ih _ d (registerTriple_dirs_mono vbp st t d hd)

/-- Folding `registerTriple` over a triple list keeps file keys
present. -/
lemma foldl_rT_files_preserve (vbp : String) (ts : List WTriple) :
    ∀ (st : FSIndex) (k : String), (∃ v, (k, v) ∈ st.files) →
      ∃ v, (k, v) ∈ (ts.foldl (registerTriple vbp) st).files := by
  induction ts with
  | nil => intro st k hk; exact hk
  | cons t ts ih =>
    intro st k hk
    rw [List.foldl_cons]
    exact ih _ k (registerTriple_files_preserve vbp st t k hk)

/-! ## The relative paths seen by the walk -/

/-- The `os.path.relpath` value associated with a component path below
the book directory (`"."` at the book directory itself). -/
def relStr (pre : List String) : String :=
  if pre = [] then "." else joinSlash pre

/-- A slash-join of well-formed names is never the path `"."`. -/
lemma joinSlash_ne_dot (pre : List String) (hne : pre ≠ [])
    (hpre : ∀ c ∈ pre, wfNameB c = true) : joinSlash pre ≠ "." := by
  cases pre with
  | nil => exact absurd rfl hne
  | cons c cs =>
    cases cs with
    | nil =>
      show c ≠ "."
      exact ((wfNameB_iff c).mp (hpre c (List.mem_cons_self _ _))).2.2.1
    | cons c' cs' =>
      intro hh
      have hmem : '/' ∈ (joinSlash (c :: c' :: cs')).data := by
        rw [joinSlash_cons c (c' :: cs') (by simp)]
        show '/' ∈ (c.data ++ ['/']) ++ (joinSlash (c' :: cs')).data
        exact List.mem_append.mpr (Or.inl (List.mem_append.mpr
          (Or.inr (List.mem_singleton.mpr rfl))))
      rw [hh] at hmem
      exact absurd hmem (by decide)

/-- Extending a relpath by one well-formed name. -/
lemma relExtend_relStr (pre : List String) (n : String)
    (hpre : ∀ c ∈ pre, wfNameB c = true) (hn : wfNameB n = true) :
    relExtend (relStr pre) n = relStr (pre ++ [n]) := by
  by_cases hpe : pre = []
  · subst hpe
    unfold relExtend
    rw [if_pos (show relStr [] = "." from rfl)]
    rfl
  · have hrs : relStr pre = joinSlash pre := by
      unfold relStr
      rw [if_neg hpe]
    have hrs2 : relStr (pre ++ [n]) = joinSlash (pre ++ [n]) := by
      unfold relStr
      rw [if_neg (by simp)]
    rw [hrs, hrs2]
    unfold relExtend
    rw [if_neg (joinSlash_ne_dot pre hpe hpre)]
    exact join2_joinSlash pre n hpe
      (fun c hc => compOkB_of_wfNameB c (hpre c hc))
      (noSlash_head n.data ((wfNameB_iff n).mp hn).2.1)

/-- Reducing the rebased-relative-path expression of the per-triple loop
to a slash-join. -/
lemma relInner (pre : List String) (n : String)
    (hpre : ∀ c ∈ pre, wfNameB c = true) (hn : wfNameB n = true) :
    (if relStr pre ≠ "." then join2 (relStr pre) n else n) =
      joinSlash (pre ++ [n]) := by
  by_cases hpe : pre = []
  · subst hpe
    rw [if_neg (show ¬relStr [] ≠ "." from fun hh => hh rfl)]
    rfl
  · have hrs : relStr pre = joinSlash pre := by
      unfold relStr
      rw [if_neg hpe]
    rw [hrs, if_pos (joinSlash_ne_dot pre hpe hpre)]
    exact join2_joinSlash pre n hpe
      (fun c hc => compOkB_of_wfNameB c (hpre c hc))
      (noSlash_head n.data ((wfNameB_iff n).mp hn).2.1)

/-! ## Walk-level coverage and carrier lemmas -/

mutual
/-- Folding `registerTriple` over a walk registers (at least) the
rebased virtual path of every subdirectory of the tree. -/
theorem walkT_dirs_cover (t : DirTree) : wfT t = true →
    ∀ (vbp root : String) (pre : List String) (st : FSIndex),
      (∀ c ∈ pre, wfNameB c = true) →
      ∀ q ∈ relDirsT t,
        normpath (join2 (join2 "/" vbp) (joinSlash (pre ++ q))) ∈
          ((walkT root (relStr pre) t).foldl (registerTriple vbp)
            st).directories
  | hwf, vbp, root, pre, st, hpre, q, hq => by
    cases t with
    | node fs sub =>
      unfold wfT at hwf
      simp only [Bool.and_eq_true, List.all_eq_true] at hwf
      unfold relDirsT at hq
      rw [show walkT root (relStr pre) (.node fs sub) =
          ⟨root, relStr pre, sub.names, fs⟩ :: walkF root (relStr pre) sub
          from rfl, List.foldl_cons]
      rcases List.mem_append.mp hq with hq | hq
      · rcases List.mem_map.mp hq with ⟨n, hn, rfl⟩
        have hnwf : wfNameB n = true := forest_names_wf sub hwf.2 n hn
        have hkey := registerTriple_dir_mem vbp root (relStr pre) sub.names
          fs st n hn
        rw [relInner pre n hpre hnwf] at hkey
        exact foldl_rT_dirs_mono vbp (walkF root (relStr pre) sub) _ _ hkey
      · exact walkF_dirs_cover sub hwf.2 vbp root pre _ hpre q hq

/-- Forest version of `walkT_dirs_cover`. -/
theorem walkF_dirs_cover (f : DirForest) : wfF f = true →
    ∀ (vbp root : String) (pre : List String) (st : FSIndex),
      (∀ c ∈ pre, wfNameB c = true) →
      ∀ q ∈ relDirsF f,
        normpath (join2 (join2 "/" vbp) (joinSlash (pre ++ q))) ∈
          ((walkF root (relStr pre) f).foldl (registerTriple vbp)
            st).directories
  | hwf, vbp, root, pre, st, hpre, q, hq => by
    cases f with
    | nil => exact absurd hq (by simp [relDirsF])
    | cons n t rest =>
      unfold wfF at hwf
      simp only [Bool.and_eq_true] at hwf
      unfold relDirsF at hq
      have hnwf : wfNameB n = true := hwf.1.1
      have hpre' : ∀ c ∈ pre ++ [n], wfNameB c = true := by
        intro c hc
        rcases List.mem_append.mp hc with hc | hc
        · exact hpre c hc
        · rw [List.mem_singleton.mp hc]
          exact hnwf
      have hwalk : walkF root (relStr pre) (.cons n t rest) =
          walkT (join2 root n) (relStr (pre ++ [n])) t ++
            walkF root (relStr pre) rest := by
        show walkT (join2 root n) (relExtend (relStr pre) n) t ++
          walkF root (relStr pre) rest = _
        rw [relExtend_relStr pre n hpre hnwf]
      rw [hwalk, List.foldl_append]
      rcases List.mem_append.mp hq with hq | hq
      · rcases List.mem_map.mp hq with ⟨p, hp, rfl⟩
        have hkey := walkT_dirs_cover t hwf.1.2 vbp (join2 root n)
          (pre ++ [n]) st hpre' p hp
        rw [show (pre ++ [n]) ++ p = pre ++ n :: p by simp] at hkey
        exact foldl_rT_dirs_mono vbp (walkF root (relStr pre) rest) _ _ hkey
      · exact walkF_dirs_cover rest hwf.2 vbp root pre _ hpre q hq
end

mutual
/-- Every file key present after folding a walk was present before or is
the rebased virtual path of one of the tree's files. -/
theorem walkT_files_carrier (t : DirTree) : wfT t = true →
    ∀ (vbp root : String) (pre : List String) (st : FSIndex),
      (∀ c ∈ pre, wfNameB c = true) →
      ∀ k v, (k, v) ∈
          ((walkT root (relStr pre) t).foldl (registerTriple vbp) st).files →
        (∃ v', (k, v') ∈ st.files) ∨
        ∃ p ∈ relFilesT t, k = normpath (join2 (join2 "/" vbp)
          (joinSlash (pre ++ p)))
  | hwf, vbp, root, pre, st, hpre, k, v, hkv => by
    cases t with
    | node fs sub =>
      unfold wfT at hwf
      simp only [Bool.and_eq_true, List.all_eq_true] at hwf
      rw [show walkT root (relStr pre) (.node fs sub) =
          ⟨root, relStr pre, sub.names, fs⟩ :: walkF root (relStr pre) sub
          from rfl, List.foldl_cons] at hkv
      rcases walkF_files_carrier sub hwf.2 vbp root pre _ hpre k v hkv with
        h1 | ⟨p, hp, hke⟩
      · rcases h1 with ⟨v', hv'⟩
        rcases registerTriple_files_carrier vbp root (relStr pre) sub.names
            fs st k v' hv' with h2 | ⟨f0, hf0, hke⟩
        · exact Or.inl h2
        · refine Or.inr ⟨[f0], ?_, ?_⟩
          · unfold relFilesT
            exact List.mem_append_left _ (List.mem_map.mpr ⟨f0, hf0, rfl⟩)
          · rw [hke, relInner pre f0 hpre (hwf.1.1.1 f0 hf0)]
      · refine Or.inr ⟨p, ?_, hke⟩
        unfold relFilesT
        exact List.mem_append_right _ hp

/-- Forest version of `walkT_files_carrier`. -/
theorem walkF_files_carrier (f : DirForest) : wfF f = true →
    ∀ (vbp root : String) (pre : List String) (st : FSIndex),
      (∀ c ∈ pre, wfNameB c = true) →
      ∀ k v, (k, v) ∈
          ((walkF root (relStr pre) f).foldl (registerTriple vbp) st).files →
        (∃ v', (k, v') ∈ st.files) ∨
        ∃ p ∈ relFilesF f, k = normpath (join2 (join2 "/" vbp)
          (joinSlash (pre ++ p)))
  | hwf, vbp, root, pre, st, hpre, k, v, hkv => by
    cases f with
    | nil => exact Or.inl ⟨v, hkv⟩
    | cons n t rest =>
      unfold wfF at hwf
      simp only [Bool.and_eq_true] at hwf
      have hnwf : wfNameB n = true := hwf.1.1
      have hpre' : ∀ c ∈ pre ++ [n], wfNameB c = true := by
        intro c hc
        rcases List.mem_append.mp hc with hc | hc
        · exact hpre c hc
        · rw [List.mem_singleton.mp hc]
          exact hnwf
      have hwalk : walkF root (relStr pre) (.cons n t rest) =
          walkT (join2 root n) (relStr (pre ++ [n])) t ++
            walkF root (relStr pre) rest := by
        show walkT (join2 root n) (relExtend (relStr pre) n) t ++
          walkF root (relStr pre) rest = _
        rw [relExtend_relStr pre n hpre hnwf]
      rw [hwalk, List.foldl_append] at hkv
      rcases walkF_files_carrier rest hwf.2 vbp root pre _ hpre k v hkv with
        h1 | ⟨p, hp, hke⟩
      · rcases h1 with ⟨v', hv'⟩
        rcases walkT_files_carrier t hwf.1.2 vbp (join2 root n) (pre ++ [n])
            st hpre' k v' hv' with h2 | ⟨p, hp, hke⟩
        · exact Or.inl h2
        · refine Or.inr ⟨n :: p, ?_, ?_⟩
          · unfold relFilesF
            exact List.mem_append_left _ (List.mem_map.mpr ⟨p, hp, rfl⟩)
          · rw [hke, show pre ++ n :: p = (pre ++ [n]) ++ p by simp]
      · refine Or.inr ⟨p, ?_, hke⟩
        unfold relFilesF
        exact List.mem_append_right _ hp
end

/-! ## Assembling virtual keys from components -/

/-- `os.path.join('/', b)` for a relative `b`. -/
lemma join2_root (b : String) (hb : ¬b.data.head? = some '/') :
    join2 "/" b = "/" ++ b := by
  unfold join2
  rw [if_neg hb,
    if_pos (Or.inr (show ("/" : String).data.getLast? = some '/' by decide))]

/-- Slash-joins concatenate over list append. -/
lemma joinSlash_append (a : List String) :
    ∀ b : List String, a ≠ [] → b ≠ [] →
      joinSlash (a ++ b) = joinSlash a ++ "/" ++ joinSlash b := by
  induction a with
  | nil => intro b ha hb; exact absurd rfl ha
  | cons c cs ih =>
    intro b ha hb
    by_cases hcse : cs = []
    · subst hcse
      show joinSlash (c :: b) = joinSlash [c] ++ "/" ++ joinSlash b
      rw [joinSlash_cons c b hb]
      rfl
    · have h1 : cs ++ b ≠ [] := by
        intro hh
        rcases List.append_eq_nil.mp hh with ⟨h2, _⟩
        exact hcse h2
      show joinSlash (c :: (cs ++ b)) = joinSlash (c :: cs) ++ "/" ++
        joinSlash b
      rw [joinSlash_cons c (cs ++ b) h1, joinSlash_cons c cs hcse,
        ih b hcse hb]
      rw [String.eq_iff_data]
      show c.data ++ ['/'] ++ ((joinSlash cs).data ++ ['/'] ++
          (joinSlash b).data) =
        c.data ++ ['/'] ++ (joinSlash cs).data ++ ['/'] ++ (joinSlash b).data
      simp

/-- The virtual key expression is an absolute slash-join when the book
path and the relative path are slash-joins of valid components. -/
lemma vkey_comps (vcs cs : List String) (hvne : vcs ≠ [])
    (hvok : ∀ c ∈ vcs, compOkB c = true) (hcne : cs ≠ [])
    (hcok : ∀ c ∈ cs, compOkB c = true) :
    join2 (join2 "/" (joinSlash vcs)) (joinSlash cs) =
      "/" ++ joinSlash (vcs ++ cs) := by
  rcases joinSlash_facts vcs hvne hvok with ⟨hv1, hv2, hv3⟩
  rcases joinSlash_facts cs hcne hcok with ⟨hc1, hc2, hc3⟩
  have hbh : ¬(joinSlash vcs).data.head? = some '/' := by
    intro hh
    exact hv2 '/' hh rfl
  rw [join2_root (joinSlash vcs) hbh]
  have hne : ("/" ++ joinSlash vcs) ≠ "" := by
    intro hh
    have h2 : ('/' :: (joinSlash vcs).data) = ([] : List Char) :=
      congrArg String.data hh
    exact List.noConfusion h2
  have hlast : ∀ x, ("/" ++ joinSlash vcs).data.getLast? = some x →
      x ≠ '/' := by
    intro x hx
    have hx' : ('/' :: (joinSlash vcs).data).getLast? = some x := hx
    cases hjd : (joinSlash vcs).data with
    | nil => exact absurd hjd hv1
    | cons a tl =>
      rw [hjd, List.getLast?_cons_cons] at hx'
      exact hv3 x (by rw [hjd]; exact hx')
  rw [join2_eq ("/" ++ joinSlash vcs) (joinSlash cs) hne hlast hc2,
    joinSlash_append vcs cs hvne hcne, String.eq_iff_data]
  show '/' :: (joinSlash vcs).data ++ ['/'] ++ (joinSlash cs).data =
    '/' :: ((joinSlash vcs).data ++ ['/'] ++ (joinSlash cs).data)
  simp

/-- An absolute component path has at least one character per
component. -/
lemma mkAbs_len_ge (cs : List String) (h : ∀ c ∈ cs, compOkB c = true) :
    cs.length ≤ (mkAbs cs).data.length := by
  induction cs using List.reverseRecOn with
  | nil => decide
  | append_singleton cs' c ih =>
    have h1 := mkAbs_data_len cs' c ((compOkB_iff c).mp (h c (by simp))).1
    have h2 := ih (fun u hu => h u (List.mem_append_left _ hu))
    rw [List.length_append, List.length_singleton]
    omega

/-- `str.strip(c)` is the identity when neither end carries `c`. -/
lemma pyStripChar_eq_self (c : Char) (s : String)
    (h1 : ∀ x, s.data.head? = some x → x ≠ c)
    (h2 : ∀ x, s.data.getLast? = some x → x ≠ c) :
    pyStripChar c s = s := by
  unfold pyStripChar
  rw [String.eq_iff_data]
  show ((s.data.dropWhile (· = c)).reverse.dropWhile (· = c)).reverse =
    s.data
  have hd : s.data.dropWhile (· = c) = s.data := by
    cases hsd : s.data with
    | nil => rfl
    | cons x tl =>
      have hx : x ≠ c := h1 x (by rw [hsd]; rfl)
      rw [List.dropWhile_cons_of_neg (by simp [hx])]
  rw [hd]
  cases hr : s.data.reverse with
  | nil =>
    have hnil : s.data = [] := by simpa using congrArg List.reverse hr
    simp [hnil]
  | cons y tl =>
    have hy : s.data.getLast? = some y := by
      rw [← List.head?_reverse, hr]
      rfl
    rw [List.dropWhile_cons_of_neg (by simp [h2 y hy]), ← hr,
      List.reverse_reverse]

/-- Splitting a slash-join of valid components recovers the
components. -/
lemma splitOnStr_joinSlash (vcs : List String) (hne : vcs ≠ [])
    (hok : ∀ c ∈ vcs, compOkB c = true) :
    splitOnStr '/' (joinSlash vcs) = vcs := by
  unfold splitOnStr
  rw [splitOnChar_joinSlash vcs hne hok, List.map_map,
    show (String.mk ∘ String.data) = id from funext fun s => rfl,
    List.map_id]

/-! ## The ancestor-closure invariant of the build (towards C6) -/

/-- `processBook` unfolded into its match structure. -/
lemma processBook_eq (db : UnicodeDB) (st : FSIndex) (b : Book) :
    processBook db st b =
      match parse_metadata db b.doc with
      | .error e => .error e
      | .ok md =>
        match get_book_path db md with
        | .error e => .error e
        | .ok vbp =>
          .ok ((walkT b.dir "." b.tree).foldl (registerTriple vbp)
            ((List.range (splitOnStr '/' (pyStripChar '/' vbp)).length).foldl
              (fun acc i =>
                ⟨acc.files, addSet acc.directories
                  (normpath ("/" ++ joinSlash
                    ((splitOnStr '/' (pyStripChar '/' vbp)).take (i + 1))))⟩)
              st)) := by
  unfold processBook
  cases parse_metadata db b.doc with
  | error e => rfl
  | ok md =>
    cases get_book_path db md with
    | error e => rfl
    | ok vbp => rfl

/-- The ancestor-prefix fold of `processBook` decomposed. -/
lemma rangeFold_eq (comps : List String) (st : FSIndex) :
    (List.range comps.length).foldl (fun acc i =>
        (⟨acc.files, addSet acc.directories
          (normpath ("/" ++ joinSlash (comps.take (i + 1))))⟩ : FSIndex)) st =
      ⟨st.files, (List.range comps.length).foldl (fun s i =>
        addSet s (normpath ("/" ++ joinSlash (comps.take (i + 1)))))
        st.directories⟩ := by
  have key : ∀ (il : List Nat) (acc : FSIndex),
      il.foldl (fun acc i =>
        (⟨acc.files, addSet acc.directories
          (normpath ("/" ++ joinSlash (comps.take (i + 1))))⟩ : FSIndex))
        acc =
      ⟨acc.files, il.foldl (fun s i =>
        addSet s (normpath ("/" ++ joinSlash (comps.take (i + 1)))))
        acc.directories⟩ := by
    intro il
    induction il with
    | nil => intro acc; rfl
    | cons i il ih =>
      intro acc
      rw [List.foldl_cons, List.foldl_cons, ih]
  exact key _ st

/-- The closure invariant the build maintains: every proper ancestor
other than `/` of every file key is a stored directory. -/
def AncClosed (st : FSIndex) : Prop :=
  ∀ k v, (k, v) ∈ st.files →
    ∀ d ∈ properAncestors k, d ≠ "/" → d ∈ st.directories

/-- `processBook` preserves the ancestor-closure invariant on
well-formed trees. -/
lemma processBook_closed (db : UnicodeDB) (hdb : ValidDB db)
    (st st' : FSIndex) (b : Book) (hwf : wfT b.tree = true)
    (h : processBook db st b = .ok st') (hst : AncClosed st) :
    AncClosed st' := by
  rw [processBook_eq] at h
  split at h
  · exact Except.noConfusion h
  · rename_i md hmd
    split at h
    · exact Except.noConfusion h
    · rename_i vbp hvbp
      obtain rfl := Except.ok.inj h
      rcases gbp_comps db hdb b.doc md vbp hmd hvbp with
        ⟨vcs, hvne, hvok, hveq⟩
      subst hveq
      have hcomps : splitOnStr '/' (pyStripChar '/' (joinSlash vcs)) =
          vcs := by
        rcases joinSlash_facts vcs hvne hvok with ⟨hj1, hj2, hj3⟩
        rw [pyStripChar_eq_self '/' (joinSlash vcs) hj2 hj3]
        exact splitOnStr_joinSlash vcs hvne hvok
      rw [hcomps, rangeFold_eq]
      have main : ∀ stW : FSIndex, stW.files = st.files →
          (∀ x ∈ st.directories, x ∈ stW.directories) →
          (∀ i, i < vcs.length →
            normpath ("/" ++ joinSlash (vcs.take (i + 1))) ∈
              stW.directories) →
          AncClosed ((walkT b.dir "." b.tree).foldl
            (registerTriple (joinSlash vcs)) stW) := by
        intro stW hWfiles hWmono hWpref k v hkv d hd hdroot
        have hkv' : (k, v) ∈ ((walkT b.dir (relStr []) b.tree).foldl
            (registerTriple (joinSlash vcs)) stW).files := hkv
        rcases walkT_files_carrier b.tree hwf (joinSlash vcs) b.dir [] stW
            (by simp) k v hkv' with ⟨v', hv'⟩ | ⟨p, hp, hkeq⟩
        · rw [hWfiles] at hv'
          exact foldl_rT_dirs_mono (joinSlash vcs) (walkT b.dir "." b.tree)
            stW d (hWmono d (hst k v' hv' d hd hdroot))
        · simp only [List.nil_append] at hkeq
          rcases relFilesT_wf b.tree hwf p hp with ⟨hpne, hpwf⟩
          have hpok : ∀ c ∈ p, compOkB c = true :=
            fun c hc => compOkB_of_wfNameB c (hpwf c hc)
          have hall : ∀ c ∈ vcs ++ p, compOkB c = true := by
            intro c hc
            rcases List.mem_append.mp hc with hc | hc
            · exact hvok c hc
            · exact hpok c hc
          have hkey2 : k = "/" ++ joinSlash (normComps vcs ++ p) := by
            rw [hkeq, vkey_comps vcs p hvne hvok hpne hpok,
              normpath_abs (vcs ++ p) hall, normComps_append_wf vcs p hpwf]
          have hallok2 : ∀ c ∈ normComps vcs ++ p, compOkB c = true := by
            intro c hc
            rcases List.mem_append.mp hc with hc | hc
            · exact (normComps_props vcs hvok c hc).1
            · exact hpok c hc
          have hanc : properAncestors k = ancList (normComps vcs ++ p) := by
            unfold properAncestors
            rw [hkey2]
            exact ancChainN_mkAbs (normComps vcs ++ p) hallok2 _
              (mkAbs_len_ge (normComps vcs ++ p) hallok2)
          rw [hanc] at hd
          rcases (mem_ancList (normComps vcs ++ p) d).mp hd with
            ⟨i, hilt, hdi⟩
          by_cases hi0 : i = 0
          · subst hi0
            rw [List.take_zero] at hdi
            exact absurd (hdi.trans (by decide)) hdroot
          · have hipos : 0 < i := Nat.pos_of_ne_zero hi0
            by_cases hile : i ≤ (normComps vcs).length
            · have htake : (normComps vcs ++ p).take i =
                  (normComps vcs).take i := by
                rw [List.take_append_eq_append_take,
                  Nat.sub_eq_zero_of_le hile]
                simp
              have hpfx : Pref ((normComps vcs).take i) (normComps vcs) :=
                ⟨(normComps vcs).drop i, List.take_append_drop i _⟩
              rcases normComps_visits vcs _ hpfx with ⟨j, hjle, hjq⟩
              have hjne : j ≠ 0 := by
                intro h0
                subst h0
                rw [List.take_zero] at hjq
                have hlen := congrArg List.length hjq
                rw [List.length_take, Nat.min_eq_left hile] at hlen
                have hz : (normComps ([] : List String)).length = 0 := rfl
                rw [hz] at hlen
                omega
              obtain ⟨j', rfl⟩ : ∃ j', j = j' + 1 := ⟨j - 1, by omega⟩
              have hj'lt : j' < vcs.length := by omega
              have hdst : d ∈ stW.directories := by
                have hW := hWpref j' hj'lt
                rw [normpath_abs (vcs.take (j' + 1))
                  (fun c hc => hvok c (List.take_subset _ _ hc))] at hW
                rw [hdi, htake, hjq]
                exact hW
              exact foldl_rT_dirs_mono (joinSlash vcs)
                (walkT b.dir "." b.tree) stW d hdst
            · push_neg at hile
              have hlenlt : i - (normComps vcs).length < p.length := by
                have h2 := hilt
                rw [List.length_append] at h2
                omega
              have hjpos : 0 < i - (normComps vcs).length := by omega
              have htake2 : (normComps vcs ++ p).take i =
                  normComps vcs ++ p.take (i - (normComps vcs).length) := by
                rw [List.take_append_eq_append_take,
                  List.take_of_length_le (le_of_lt hile)]
              have hdi' : d = mkAbs (normComps vcs ++
                  p.take (i - (normComps vcs).length)) := by
                rw [hdi, htake2]
              have hq : p.take (i - (normComps vcs).length) ∈
                  relDirsT b.tree :=
                relFilesT_take b.tree p hp _ hjpos hlenlt
              have htne : p.take (i - (normComps vcs).length) ≠ [] := by
                intro hh
                have hlen := congrArg List.length hh
                rw [List.length_take,
                  Nat.min_eq_left (le_of_lt hlenlt)] at hlen
                simp only [List.length_nil] at hlen
                omega
              have hall2 : ∀ c ∈ vcs ++ p.take (i - (normComps vcs).length),
                  compOkB c = true := by
                intro c hc
                rcases List.mem_append.mp hc with hc | hc
                · exact hvok c hc
                · exact hpok c (List.take_subset _ _ hc)
              have hkd : normpath (join2 (join2 "/" (joinSlash vcs))
                  (joinSlash (p.take (i - (normComps vcs).length)))) =
                  "/" ++ joinSlash (normComps vcs ++
                    p.take (i - (normComps vcs).length)) := by
                rw [vkey_comps vcs (p.take (i - (normComps vcs).length))
                    hvne hvok htne
                    (fun c hc => hpok c (List.take_subset _ _ hc)),
                  normpath_abs (vcs ++ p.take (i - (normComps vcs).length))
                    hall2,
                  normComps_append_wf vcs
                    (p.take (i - (normComps vcs).length))
                    (fun c hc => hpwf c (List.take_subset _ _ hc))]
              have hcov := walkT_dirs_cover b.tree hwf (joinSlash vcs) b.dir
                [] stW (by simp) (p.take (i - (normComps vcs).length)) hq
              simp only [List.nil_append] at hcov
              rw [hkd] at hcov
              rw [hdi']
              exact hcov
      apply main
      · rfl
      · intro x hx
        exact foldl_addSet_mono
          (fun i => normpath ("/" ++ joinSlash (vcs.take (i + 1))))
          (List.range vcs.length) st.directories x hx
      · intro i hi
        exact foldl_addSet_mem
          (fun i => normpath ("/" ++ joinSlash (vcs.take (i + 1))))
          (List.range vcs.length) i (List.mem_range.mpr hi) st.directories

/-- The fold of `processBook` over a book list preserves closure. -/
lemma build_closed_aux (db : UnicodeDB) (hdb : ValidDB db)
    (books : List Book) :
    (∀ b ∈ books, wfT b.tree = true) →
    ∀ st fs : FSIndex, AncClosed st →
      books.foldlM (processBook db) st = .ok fs → AncClosed fs := by
  induction books with
  | nil =>
    intro _ st fs hst h
    obtain rfl := Except.ok.inj (show Except.ok st = Except.ok fs from h)
    exact hst
  | cons b bs ih =>
    intro hwf st fs hst h
    have h' : processBook db st b >>=
        (fun u => bs.foldlM (processBook db) u) = Except.ok fs := h
    cases hpb : processBook db st b with
    | error e =>
      rw [hpb] at h'
      exact Except.noConfusion
        (show (Except.error e : Except PyError FSIndex) = Except.ok fs
          from h')
    | ok st1 =>
      rw [hpb] at h'
      exact ih (fun x hx => hwf x (List.mem_cons_of_mem _ hx)) st1 fs
        (processBook_closed db hdb st st1 b (hwf b (List.mem_cons_self _ _))
          hpb hst)
        (show bs.foldlM (processBook db) st1 = Except.ok fs from h')

/-- C6 (amended): after a successful `build_file_structure` over real
directory trees whose walk yields well-formed names, every proper
ancestor other than the root `/` of every key of the `files` mapping is
a member of the `directories` set.  (The further claim that `/` itself
is never stored is refuted by `build_stores_root_dir`.) -/
theorem build_ancestors_closed (db : UnicodeDB) (books : List Book)
    (fs : FSIndex) (hdb : ValidDB db)
    (hwf : ∀ b ∈ books, wfT b.tree = true)
    (hbuild : build_file_structure db books = .ok fs) :
    ∀ k v, (k, v) ∈ fs.files →
      ∀ d ∈ properAncestors k, d ≠ "/" → d ∈ fs.directories := by
  have h0 : AncClosed ⟨[], []⟩ := by
    intro k v hkv
    exact absurd hkv (List.not_mem_nil _)
  exact build_closed_aux db hdb books hwf ⟨[], []⟩ fs h0 hbuild

/-- Witness for C6 at a concrete build: in the index built from
`bookPlain`, the proper ancestor `/Ann` of the file key
`/Ann/Tide/tide.epub` is a stored directory. -/
theorem build_ancestors_closed_inst :
    "/Ann" ∈ (⟨[("/Ann/Tide/metadata.opf", "/lib/b1/metadata.opf"),
        ("/Ann/Tide/tide.epub", "/lib/b1/tide.epub")],
       ["/Ann", "/Ann/Tide"]⟩ : FSIndex).directories :=
  build_ancestors_closed dbA [bookPlain]
    ⟨[("/Ann/Tide/metadata.opf", "/lib/b1/metadata.opf"),
      ("/Ann/Tide/tide.epub", "/lib/b1/tide.epub")],
     ["/Ann", "/Ann/Tide"]⟩ validDB_dbA
    (by intro b hb; rw [List.mem_singleton.mp hb]; decide)
    (by decide) "/Ann/Tide/tide.epub" "/lib/b1/tide.epub" (by decide)
    "/Ann" (by decide) (by decide)

/-- C6 counterexample: the root `/` is not "never stored" — building
from a book whose sanitized author is `..` normalizes the first
ancestor prefix `/..` to `/` and stores it in `directories`, even
though the book's real tree is perfectly well-formed. -/
theorem build_stores_root_dir :
    build_file_structure dbA [bookDotDot] = .ok fsDotDot ∧
    "/" ∈ fsDotDot.directories ∧ wfT bookDotDot.tree = true := by decide

/-! ## The descriptor key of every book (towards C10) -/

/-- The walk fold maps the `metadata.opf` at a book directory root. -/
lemma walk_metadata_mem (vbp root : String) (t : DirTree) (st : FSIndex)
    (hmo : "metadata.opf" ∈ t.rootFiles) :
    ∃ v, (normpath (join2 (join2 "/" vbp) "metadata.opf"), v) ∈
      ((walkT root "." t).foldl (registerTriple vbp) st).files := by
  cases t with
  | node fsL sub =>
    have hmo' : "metadata.opf" ∈ fsL := hmo
    rw [show walkT root "." (.node fsL sub) =
        ⟨root, ".", sub.names, fsL⟩ :: walkF root "." sub from rfl,
      List.foldl_cons]
    have hkey := registerTriple_file_mem vbp root "." sub.names fsL st
      "metadata.opf" hmo'
    rw [if_neg (show ¬("." : String) ≠ "." from fun hh => hh rfl)] at hkey
    exact foldl_rT_files_preserve vbp (walkF root "." sub) _ _ hkey

/-- `processBook` maps the descriptor of its book. -/
lemma processBook_metadata (db : UnicodeDB) (st st' : FSIndex) (b : Book)
    (hmo : "metadata.opf" ∈ b.tree.rootFiles)
    (h : processBook db st b = .ok st') :
    ∀ md vbp, parse_metadata db b.doc = .ok md →
      get_book_path db md = .ok vbp →
      ∃ v, (normpath (join2 (join2 "/" vbp) "metadata.opf"), v) ∈
        st'.files := by
  intro md vbp hmd hvbp
  rw [processBook_eq] at h
  split at h
  · exact Except.noConfusion h
  · rename_i md0 hmd0
    split at h
    · exact Except.noConfusion h
    · rename_i vbp0 hvbp0
      obtain rfl := Except.ok.inj h
      rw [hmd0] at hmd
      obtain rfl := Except.ok.inj hmd
      rw [hvbp0] at hvbp
      obtain rfl := Except.ok.inj hvbp
      exact walk_metadata_mem vbp0 b.dir b.tree _ hmo

/-- `processBook` keeps existing file keys present. -/
lemma processBook_files_preserve (db : UnicodeDB) (st st' : FSIndex)
    (b : Book) (h : processBook db st b = .ok st') (k : String)
    (hk : ∃ v, (k, v) ∈ st.files) : ∃ v, (k, v) ∈ st'.files := by
  rw [processBook_eq] at h
  split at h
  · exact Except.noConfusion h
  · rename_i md hmd
    split at h
    · exact Except.noConfusion h
    · rename_i vbp hvbp
      obtain rfl := Except.ok.inj h
      refine foldl_rT_files_preserve vbp (walkT b.dir "." b.tree) _ k ?_
      rw [rangeFold_eq]
      exact hk

/-- The build fold keeps existing file keys present. -/
lemma foldlM_files_preserve (db : UnicodeDB) (books : List Book) :
    ∀ st fs : FSIndex, books.foldlM (processBook db) st = .ok fs →
      ∀ k, (∃ v, (k, v) ∈ st.files) → ∃ v, (k, v) ∈ fs.files := by
  induction books with
  | nil =>
    intro st fs h k hk
    obtain rfl := Except.ok.inj (show Except.ok st = Except.ok fs from h)
    exact hk
  | cons b bs ih =>
    intro st fs h k hk
    have h' : processBook db st b >>=
        (fun u => bs.foldlM (processBook db) u) = Except.ok fs := h
    cases hpb : processBook db st b with
    | error e =>
      rw [hpb] at h'
      exact Except.noConfusion
        (show (Except.error e : Except PyError FSIndex) = Except.ok fs
          from h')
    | ok st1 =>
      rw [hpb] at h'
      exact ih st1 fs
        (show bs.foldlM (processBook db) st1 = Except.ok fs from h') k
        (processBook_files_preserve db st st1 b hpb k hk)

/-- Build-level presence of every book's descriptor key. -/
lemma build_metadata_aux (db : UnicodeDB) (books : List Book) :
    ∀ st fs : FSIndex, books.foldlM (processBook db) st = .ok fs →
      ∀ b ∈ books, "metadata.opf" ∈ b.tree.rootFiles →
        ∀ md vbp, parse_metadata db b.doc = .ok md →
          get_book_path db md = .ok vbp →
          ∃ v, (normpath (join2 (join2 "/" vbp) "metadata.opf"), v) ∈
            fs.files := by
  induction books with
  | nil =>
    intro st fs h b hb
    exact absurd hb (List.not_mem_nil b)
  | cons b0 bs ih =>
    intro st fs h b hb hmo md vbp hmd hvbp
    have h' : processBook db st b0 >>=
        (fun u => bs.foldlM (processBook db) u) = Except.ok fs := h
    cases hpb : processBook db st b0 with
    | error e =>
      rw [hpb] at h'
      exact Except.noConfusion
        (show (Except.error e : Except PyError FSIndex) = Except.ok fs
          from h')
    | ok st1 =>
      rw [hpb] at h'
      have hfs : bs.foldlM (processBook db) st1 = Except.ok fs := h'
      rcases List.mem_cons.mp hb with rfl | hb'
      · exact foldlM_files_preserve db bs st1 fs hfs _
          (processBook_metadata db st st1 b hmo hpb md vbp hmd hvbp)
      · exact ih st1 fs hfs b hb' hmo md vbp hmd hvbp

/-- C10 (amended): after a successful build, for every discovered book
whose real directory holds a root `metadata.opf`, the `files` mapping
contains the key `normpath('/' + virtual_book_path + '/metadata.opf')`
— the descriptor is exposed in the virtual tree — but its value is
whatever real path was registered last for that key, which for
colliding books can belong to a different book
(`build_metadata_overwritten`). -/
theorem build_metadata_mapped (db : UnicodeDB) (books : List Book)
    (fs : FSIndex) (hbuild : build_file_structure db books = .ok fs) :
    ∀ b ∈ books, "metadata.opf" ∈ b.tree.rootFiles →
      ∀ md vbp, parse_metadata db b.doc = .ok md →
        get_book_path db md = .ok vbp →
        ∃ v, (normpath (join2 (join2 "/" vbp) "metadata.opf"), v) ∈
          fs.files :=
  build_metadata_aux db books ⟨[], []⟩ fs hbuild

/-- Witness for C10's amended theorem at a concrete one-book build. -/
theorem build_metadata_mapped_inst :
    ∃ v, (normpath (join2 (join2 "/" "Ann/Tide") "metadata.opf"), v) ∈
      (⟨[("/Ann/Tide/metadata.opf", "/lib/b1/metadata.opf"),
          ("/Ann/Tide/tide.epub", "/lib/b1/tide.epub")],
        ["/Ann", "/Ann/Tide"]⟩ : FSIndex).files :=
  build_metadata_mapped dbA [bookPlain]
    ⟨[("/Ann/Tide/metadata.opf", "/lib/b1/metadata.opf"),
      ("/Ann/Tide/tide.epub", "/lib/b1/tide.epub")],
     ["/Ann", "/Ann/Tide"]⟩ (by decide) bookPlain
    (List.mem_singleton.mpr rfl) (by decide)
    ⟨"Ann", "Tide", none, none⟩ "Ann/Tide" (by decide) (by decide)

/-- A plain book, and an identical copy stored in a different real
directory: both derive the virtual book path `Ann/Tide`, so their
descriptors collide on the same virtual key. -/
def bookCopyB : Book :=
  ⟨.ok ⟨some (some "Ann"), some (some "Tide"), none, none⟩, "/lib/b2",
    .node ["metadata.opf"] .nil⟩

/-- C10 counterexample: after building `bookPlain` followed by
`bookCopyB`, the first book's descriptor key is present but maps to the
second book's real descriptor, not to its own `metadata.opf`. -/
theorem build_metadata_overwritten :
    build_file_structure dbA [bookPlain, bookCopyB] =
      .ok ⟨[("/Ann/Tide/metadata.opf", "/lib/b2/metadata.opf"),
            ("/Ann/Tide/tide.epub", "/lib/b1/tide.epub")],
           ["/Ann", "/Ann/Tide"]⟩ ∧
    normpath (join2 (join2 "/" "Ann/Tide") "metadata.opf") =
      "/Ann/Tide/metadata.opf" ∧
    lookupKey [("/Ann/Tide/metadata.opf", "/lib/b2/metadata.opf"),
        ("/Ann/Tide/tide.epub", "/lib/b1/tide.epub")]
      "/Ann/Tide/metadata.opf" ≠
      some (join2 bookPlain.dir "metadata.opf") := by decide
